import Mathlib

/-!
# Generic singly linked FIFO queue (`Queue.h`)

A shallow embedding of the container `Queue<T>` of `Queue.h`.

* The free store is an arena `Heap T`: a list of cells, a cell's index being the address of
  the node it holds.  `std::make_unique<Node>` appends a cell, destroying a node empties its
  cell, and addresses are never handed out twice.
* `std::unique_ptr<Node>` and `Node*` are both `Option Nat` (`none` is `nullptr`).
* A member function is a function of the heap and of the object's two data members, whose
  result is an `Outcome`: a normal return, a thrown exception (both with the state they
  leave behind), or undefined behaviour (a null or dangling pointer is dereferenced, or a
  loop over the `next` links does not terminate).
* The `int` counter of `size()` holds a value from `0` to `INT_MAX`; incrementing it at
  `INT_MAX` is a signed overflow, which is undefined behaviour like the others.
* `emplace` calls a member `emplace_front` that the repository declares nowhere; it is
  modelled from the specification (section 4.2 (a)), and only the before-begin branch of
  `emplace` depends on it.
-/

namespace GenericQueue

variable {T : Type}

/-! ## Heap and nodes -/

/-- The struct `Queue<T>::Node`: the element and the owning link `next`. -/
structure Node (T : Type) where
  data : T
  next : Option Nat
deriving DecidableEq, Repr

/-- The free store: cell `a` holds the node living at address `a`, `none` once destroyed. -/
abbrev Heap (T : Type) := List (Option (Node T))

/-- The node at address `a`, when `a` is the address of a live node. -/
def Heap.read {T : Type} (h : Heap T) (a : Nat) : Option (Node T) :=
  (h.get? a).join

/-- The address `std::make_unique<Node>` returns next. -/
def Heap.fresh {T : Type} (h : Heap T) : Nat := h.length

/-- The heap after `std::make_unique<Node>` built node `n` (at address `h.fresh`). -/
def Heap.alloc {T : Type} (h : Heap T) (n : Node T) : Heap T := h ++ [some n]

/-- Overwrite the node at address `a`. -/
def Heap.write {T : Type} (h : Heap T) (a : Nat) (n : Node T) : Heap T := h.set a (some n)

/-- Destroy the node at address `a`. -/
def Heap.free {T : Type} (h : Heap T) (a : Nat) : Heap T := h.set a none

/-! ## Results of member functions -/

/-- The exceptions that leave a member function: `std::out_of_range`, and whatever the copy
constructor of the element type throws. -/
inductive Err where
  | out_of_range
  | element_copy
deriving DecidableEq, Repr

/-- The result of a call: a normal return with a value and the state afterwards, an exception
with the state it leaves behind, or undefined behaviour. -/
inductive Outcome (σ α : Type) where
  | ok (val : α) (st : σ)
  | raised (e : Err) (st : σ)
  | undefined
deriving DecidableEq, Repr

/-! ## The queue object -/

/-- The data members of `Queue<T>`: `std::unique_ptr<Node> first` and `Node* last`. -/
structure Queue where
  first : Option Nat
  last : Option Nat
deriving DecidableEq, Repr

/-- The state a member function works on: the free store and the object's members. -/
abbrev St (T : Type) := Heap T × Queue

/-- The constructor `Queue() = default`: both members are `nullptr`. -/
def Queue.default : Queue := ⟨none, none⟩

/-- The member `bool empty() const { return first == nullptr; }`. -/
def Queue.empty (q : Queue) : Bool := q.first == none

/-- The largest value of an `int` (`std::numeric_limits<int>::max()`), `int` being 32 bits
wide. -/
def INT_MAX : Nat := 2147483647

/-- The loop of `size()`: `for (current = first.get(); current != nullptr;
current = current->next.get()) size++`, with `fuel` bounding the number of iterations.  The
counter `size` is an `int`: `size++` at `INT_MAX` overflows, which is undefined. -/
def sizeLoop {T : Type} (h : Heap T) : Nat → Option Nat → Nat → Option Nat
  | _, none, size => some size
  | 0, some _, _ => none
  | fuel + 1, some current, size =>
    match h.read current with
    | none => none
    | some n => if size < INT_MAX then sizeLoop h fuel n.next (size + 1) else none

/-- The member `int size() const`.  A chain without a cycle has at most `h.length` nodes, so
the loop gets `h.length` iterations; `none` is undefined behaviour (a dangling pointer, a
chain with a cycle, or the overflow of the counter on a chain of more than `INT_MAX`
nodes). -/
def Queue.size {T : Type} (h : Heap T) (q : Queue) : Option Nat :=
  sizeLoop h h.length q.first 0

/-- The member `T& front() const`. -/
def Queue.front {T : Type} (h : Heap T) (q : Queue) : Outcome (St T) T :=
  if !q.empty then
    match q.first.bind h.read with
    | some n => .ok n.data (h, q)
    | none => .undefined
  else .raised .out_of_range (h, q)

/-- The member `T& back() const`. -/
def Queue.back {T : Type} (h : Heap T) (q : Queue) : Outcome (St T) T :=
  if !q.empty then
    match q.last.bind h.read with
    | some n => .ok n.data (h, q)
    | none => .undefined
  else .raised .out_of_range (h, q)

/-- Destroying the chain a `unique_ptr<Node>` owns: every node from `p` on is destroyed. -/
def destroyChain {T : Type} (h : Heap T) : Nat → Option Nat → Option (Heap T)
  | _, none => some h
  | 0, some _ => none
  | fuel + 1, some a =>
    match h.read a with
    | none => none
    | some n => destroyChain (h.free a) fuel n.next

/-- The member `void push(T&& theData)`: the new node is built from the moved value; an empty
queue takes it as `first`, otherwise it becomes `last->next` (whatever `last->next` owned
before is destroyed by the assignment); `last` then refers to the new node. -/
def Queue.push {T : Type} (h : Heap T) (q : Queue) (theData : T) : Outcome (St T) Unit :=
  let newNode := h.fresh
  let h1 := h.alloc ⟨theData, none⟩
  if q.first == none then
    .ok () (h1, ⟨some newNode, some newNode⟩)
  else
    match q.last with
    | none => .undefined
    | some l =>
      match h1.read l with
      | none => .undefined
      | some n =>
        match destroyChain (h1.write l ⟨n.data, some newNode⟩) h1.length n.next with
        | none => .undefined
        | some h2 => .ok () (h2, ⟨q.first, some newNode⟩)

/-- The member `void push(const T& theData)`: as `push(T&&)`, but the node holds a copy of the
value, and `throwsOn x` says that copying the element `x` throws. -/
def Queue.pushCopy {T : Type} (throwsOn : T → Bool) (h : Heap T) (q : Queue) (theData : T) :
    Outcome (St T) Unit :=
  if throwsOn theData then .raised .element_copy (h, q) else q.push h theData

/-- The private member `do_unchecked_pop`: `first = std::move(first->next)`; the former head
node is destroyed. -/
def Queue.do_unchecked_pop {T : Type} (h : Heap T) (q : Queue) : Option (St T) :=
  match q.first with
  | none => none
  | some a =>
    match h.read a with
    | none => none
    | some n => some (h.free a, ⟨n.next, q.last⟩)

/-- The member `void pop()`. -/
def Queue.pop {T : Type} (h : Heap T) (q : Queue) : Outcome (St T) Unit :=
  if q.empty then .raised .out_of_range (h, q)
  else
    match q.do_unchecked_pop h with
    | some st => .ok () st
    | none => .undefined

/-- The member `void swap(Queue& other) noexcept` on two distinct objects: the new members of
`*this` and of `other`. -/
def Queue.swap (this other : Queue) : Queue × Queue :=
  (⟨other.first, other.last⟩, ⟨this.first, this.last⟩)

/-- The loop `while (first != nullptr) do_unchecked_pop();` of the destructor and of the
`catch` block of the copy constructor. -/
def popLoop {T : Type} : Nat → Heap T → Queue → Option (St T)
  | 0, h, q => if q.first == none then some (h, q) else none
  | fuel + 1, h, q =>
    if q.first == none then some (h, q)
    else
      match q.do_unchecked_pop h with
      | none => none
      | some (h1, q1) => popLoop fuel h1 q1

/-- The destructor `~Queue()`: the heap once the object is gone. -/
def Queue.destroy {T : Type} (h : Heap T) (q : Queue) : Option (Heap T) :=
  (popLoop h.length h q).map Prod.fst

/-- The loop of the copy constructor: `for (loop = source.first.get(); loop != nullptr;
loop = loop->next.get()) push(loop->data);`.  An exception of `push` leaves the loop. -/
def copyLoop {T : Type} (throwsOn : T → Bool) :
    Nat → Heap T → Queue → Option Nat → Outcome (St T) Unit
  | _, h, this, none => .ok () (h, this)
  | 0, _, _, some _ => .undefined
  | fuel + 1, h, this, some loop =>
    match h.read loop with
    | none => .undefined
    | some n =>
      match this.pushCopy throwsOn h n.data with
      | .undefined => .undefined
      | .raised e st => .raised e st
      | .ok _ (h1, this1) =>
        match h1.read loop with
        | none => .undefined
        | some n1 => copyLoop throwsOn fuel h1 this1 n1.next

/-- The copy constructor `Queue(Queue const& source)`: the new object starts with both members
`nullptr`; when the loop throws, the `catch` block pops every node pushed so far and rethrows.
The state is the heap and the object under construction. -/
def Queue.copyConstruct {T : Type} (throwsOn : T → Bool) (h : Heap T) (source : Queue) :
    Outcome (St T) Unit :=
  match copyLoop throwsOn h.length h Queue.default source.first with
  | .ok _ st => .ok () st
  | .undefined => .undefined
  | .raised e (h1, this) =>
    match popLoop h1.length h1 this with
    | none => .undefined
    | some st => .raised e st

/-- The move constructor `Queue(Queue&& move) noexcept { move.swap(*this); }`: the new object
starts with both members `nullptr`.  The result is the new object and `move` afterwards. -/
def Queue.moveConstruct (move : Queue) : Queue × Queue :=
  let r := move.swap Queue.default
  (r.2, r.1)

/-- The move assignment `operator=(Queue&& move) noexcept { move.swap(*this); return *this; }`
on two distinct objects: `*this` and `move` afterwards. -/
def Queue.moveAssign (this move : Queue) : Queue × Queue :=
  let r := move.swap this
  (r.2, r.1)

/-- The copy assignment `operator=(Queue const& rhs) { Queue copy(rhs); swap(copy);
return *this; }`, the destructor of `copy` running at the end.  The state is the heap and
`*this`; `rhs` is only read, and before `*this` changes, so the same function describes
`q = q`. -/
def Queue.copyAssign {T : Type} (throwsOn : T → Bool) (h : Heap T) (this rhs : Queue) :
    Outcome (St T) Unit :=
  match Queue.copyConstruct throwsOn h rhs with
  | .undefined => .undefined
  | .raised e (h1, _) => .raised e (h1, this)
  | .ok _ (h1, copy) =>
    let r := this.swap copy
    match r.2.destroy h1 with
    | none => .undefined
    | some h2 => .ok () (h2, r.1)

/-! ## Iterators -/

/-- The class `Queue<T>::iterator`: a node pointer and the before-begin flag. -/
structure iterator where
  node : Option Nat
  before_begin : Bool
deriving DecidableEq, Repr

/-- The member `iterator begin() { return first.get(); }`. -/
def Queue.begin (q : Queue) : iterator := ⟨q.first, false⟩

/-- The member `iterator end() { return {}; }`. -/
def Queue.end (_q : Queue) : iterator := ⟨none, false⟩

/-- The member `iterator before_begin() { return { first.get(), true }; }`. -/
def Queue.before_begin (q : Queue) : iterator := ⟨q.first, true⟩

/-- The operator `iterator::operator==`. -/
def iterator.eq (it other : iterator) : Bool :=
  it.node == other.node && it.before_begin == other.before_begin

/-- The operator `iterator::operator!=`. -/
def iterator.ne (it other : iterator) : Bool := !(it.eq other)

/-- The operator `iterator::operator*`: `node->data`. -/
def iterator.deref {T : Type} (h : Heap T) (it : iterator) : Option T :=
  (it.node.bind h.read).map Node.data

/-- The operator `iterator::operator++`: `if (before_begin) before_begin = false;
else node = node->next.get();`. -/
def iterator.incr {T : Type} (h : Heap T) (it : iterator) : Option iterator :=
  if it.before_begin then some ⟨it.node, false⟩
  else (it.node.bind h.read).map fun n => ⟨n.next, false⟩

/-- The traversal `for (; it != last; ++it) out.push_back(*it)` that `std::equal`,
`std::distance` and `std::find` perform on an iterator range. -/
def traverse {T : Type} (h : Heap T) : Nat → iterator → iterator → Option (List T)
  | 0, it, last => if it.ne last then none else some []
  | fuel + 1, it, last =>
    if it.ne last then
      match it.deref h, it.incr h with
      | some x, some it1 => (traverse h fuel it1 last).map (x :: ·)
      | _, _ => none
    else some []

/-- The elements met from `begin()` to `end()`. -/
def Queue.toList {T : Type} (h : Heap T) (q : Queue) : Option (List T) :=
  traverse h h.length q.begin q.end

/-! ## The class invariant -/

/-- The chain segment from pointer `p` up to (not including) `stop`: `as` lists the addresses
of its nodes in order, each node live and linked to the next one. -/
def Seg {T : Type} (h : Heap T) : Option Nat → List Nat → Option Nat → Prop
  | p, [], stop => p = stop
  | p, a :: as, stop =>
    p = some a ∧ (h.read a).isSome ∧ Seg h ((h.read a).bind Node.next) as stop

instance Seg.instDecidable {T : Type} (h : Heap T) :
    (p : Option Nat) → (as : List Nat) → (stop : Option Nat) → Decidable (Seg h p as stop)
  | p, [], stop => inferInstanceAs (Decidable (p = stop))
  | p, a :: as, stop =>
    have := Seg.instDecidable h ((h.read a).bind Node.next) as stop
    inferInstanceAs (Decidable (p = some a ∧ (h.read a).isSome ∧ _))

/-- The invariant of the data model: `first` heads a chain of live nodes, at the pairwise
distinct addresses `as`, that ends in `nullptr`; and when the chain is not empty, `last` is
the address of its last node. -/
def Owns {T : Type} (h : Heap T) (q : Queue) (as : List Nat) : Prop :=
  Seg h q.first as none ∧ as.Nodup ∧ (as = [] ∨ q.last = as.getLast?)

instance Owns.instDecidable {T : Type} (h : Heap T) (q : Queue) (as : List Nat) :
    Decidable (Owns h q as) :=
  inferInstanceAs (Decidable (_ ∧ _ ∧ _))

/-- The elements stored in the nodes at the addresses `as`. -/
def elems {T : Type} (h : Heap T) (as : List Nat) : List T :=
  as.filterMap fun a => (h.read a).map Node.data

/-- A queue object that satisfies the invariant and holds the elements `xs`, front to back. -/
def Holds {T : Type} (h : Heap T) (q : Queue) (xs : List T) : Prop :=
  ∃ as, Owns h q as ∧ elems h as = xs

/-- The heap once the nodes at the addresses `as` are destroyed. -/
def freeAll {T : Type} (h : Heap T) (as : List Nat) : Heap T :=
  as.foldl Heap.free h

/-! ## Call sequences on one queue -/

/-- A run of `push` calls, one per element of the list, in order (as the test cases do). -/
def pushEach (push : Heap T → Queue → T → Outcome (St T) Unit) :
    Heap T → Queue → List T → Outcome (St T) Unit
  | h, q, [] => .ok () (h, q)
  | h, q, x :: xs =>
    match push h q x with
    | .ok _ (h1, q1) => pushEach push h1 q1 xs
    | .raised e st => .raised e st
    | .undefined => .undefined

/-- A call of one of the two mutators `push` and `pop`. -/
inductive Call (T : Type) where
  | push (x : T)
  | pop
deriving DecidableEq, Repr

/-- The number of `push` calls in a sequence of calls. -/
def Call.pushes : List (Call T) → Nat
  | [] => 0
  | .push _ :: cs => Call.pushes cs + 1
  | .pop :: cs => Call.pushes cs

/-- One call on the queue. -/
def Call.exec (st : St T) : Call T → Outcome (St T) Unit
  | .push x => st.2.push st.1 x
  | .pop => st.2.pop st.1

/-- A caller that makes the calls in order, catches the exception of a rejected call and goes
on with the state the exception left.  The result is the final state, the number of calls
that returned normally among the `pop` calls, and the number of rejected calls; `none` is
undefined behaviour. -/
def runCalls : St T → List (Call T) → Option (St T × Nat × Nat)
  | st, [] => some (st, 0, 0)
  | st, c :: cs =>
    match c.exec st with
    | .undefined => none
    | .raised _ st1 => (runCalls st1 cs).map fun r => (r.1, r.2.1, r.2.2 + 1)
    | .ok _ st1 =>
      (runCalls st1 cs).map fun r =>
        (r.1, (match c with | .pop => r.2.1 + 1 | .push _ => r.2.1), r.2.2)

/-! ## Programs over several queue objects -/

/-- The free store and the queue objects of a program; an object is named by its index. -/
structure World (T : Type) where
  heap : Heap T
  objs : List Queue
deriving DecidableEq, Repr

/-- The statements of a program over queue objects `i`, `j`:
`Queue<T> q;`, `i.push(std::move(x))`, `i.push(x)`, `i.pop()`, `i.swap(j)`, `Queue<T> q(i);`,
`i = j;`, `Queue<T> q(std::move(i));` and `i = std::move(j);`. -/
inductive Op (T : Type) where
  | construct
  | push (i : Nat) (x : T)
  | pushCopy (i : Nat) (x : T)
  | pop (i : Nat)
  | swap (i j : Nat)
  | copyConstruct (i : Nat)
  | copyAssign (i j : Nat)
  | moveConstruct (i : Nat)
  | moveAssign (i j : Nat)
deriving DecidableEq, Repr

/-- The world after a member function of object `i` ended in the given outcome. -/
def World.store (w : World T) (i : Nat) : Outcome (St T) Unit → Outcome (World T) Unit
  | .ok _ (h, q) => .ok () ⟨h, w.objs.set i q⟩
  | .raised e (h, q) => .raised e ⟨h, w.objs.set i q⟩
  | .undefined => .undefined

/-- One statement.  A constructed object is appended to the objects; a constructor that throws
leaves no object.  Naming an object that does not exist is not a program (`undefined`).
With `i = j` the two stores of `swap` and of the move assignment write the object's own
members back, as `std::swap` of a member with itself does. -/
def World.step (throwsOn : T → Bool) (w : World T) : Op T → Outcome (World T) Unit
  | .construct => .ok () ⟨w.heap, w.objs ++ [Queue.default]⟩
  | .push i x =>
    match w.objs[i]? with
    | none => .undefined
    | some q => w.store i (q.push w.heap x)
  | .pushCopy i x =>
    match w.objs[i]? with
    | none => .undefined
    | some q => w.store i (q.pushCopy throwsOn w.heap x)
  | .pop i =>
    match w.objs[i]? with
    | none => .undefined
    | some q => w.store i (q.pop w.heap)
  | .swap i j =>
    match w.objs[i]?, w.objs[j]? with
    | some a, some b => .ok () ⟨w.heap, (w.objs.set i (a.swap b).1).set j (a.swap b).2⟩
    | _, _ => .undefined
  | .copyConstruct i =>
    match w.objs[i]? with
    | none => .undefined
    | some source =>
      match Queue.copyConstruct throwsOn w.heap source with
      | .ok _ (h, q) => .ok () ⟨h, w.objs ++ [q]⟩
      | .raised e (h, _) => .raised e ⟨h, w.objs⟩
      | .undefined => .undefined
  | .copyAssign i j =>
    match w.objs[i]?, w.objs[j]? with
    | some this, some rhs => w.store i (Queue.copyAssign throwsOn w.heap this rhs)
    | _, _ => .undefined
  | .moveConstruct i =>
    match w.objs[i]? with
    | none => .undefined
    | some move =>
      .ok () ⟨w.heap,
        w.objs.set i (Queue.moveConstruct move).2 ++ [(Queue.moveConstruct move).1]⟩
  | .moveAssign i j =>
    match w.objs[i]?, w.objs[j]? with
    | some this, some move =>
      .ok () ⟨w.heap,
        (w.objs.set i (this.moveAssign move).1).set j (this.moveAssign move).2⟩
    | _, _ => .undefined

/-- The world a statement leaves, whether it returned or threw (the program catches). -/
def World.next (throwsOn : T → Bool) (w : World T) (op : Op T) : Option (World T) :=
  match w.step throwsOn op with
  | .ok _ w1 => some w1
  | .raised _ w1 => some w1
  | .undefined => none

/-- The world after the statements of a program, run in order. -/
def World.run (throwsOn : T → Bool) : World T → List (Op T) → Option (World T)
  | w, [] => some w
  | w, op :: ops => (w.next throwsOn op).bind fun w1 => World.run throwsOn w1 ops

/-- The worlds a program reaches, starting with no queue object. -/
def Reachable (throwsOn : T → Bool) (w : World T) : Prop :=
  ∃ h ops, World.run throwsOn ⟨h, []⟩ ops = some w

/-- The elements of object `i`, met from `begin()` to `end()`. -/
def World.contents (w : World T) (i : Nat) : Option (List T) :=
  w.objs[i]?.bind fun q => q.toList w.heap

/-- The invariant of a world: every object satisfies the class invariant, object `i` owning
the nodes at the addresses `owned i`, and no node belongs to two objects. -/
def WorldInv (w : World T) : Prop :=
  ∃ owned : Nat → List Nat,
    (∀ i q, w.objs[i]? = some q → Owns w.heap q (owned i)) ∧
    ∀ i j, i < w.objs.length → j < w.objs.length → i ≠ j →
      List.Disjoint (owned i) (owned j)

/-! ## The queue of the test cases -/

/-- The heap after `push(2); push(4); push(6); push(8); push(10)` on a default-constructed
queue, as in the test case "Create a queue list with multiple elements". -/
def testHeap : Heap Nat :=
  [some ⟨2, some 1⟩, some ⟨4, some 2⟩, some ⟨6, some 3⟩, some ⟨8, some 4⟩, some ⟨10, none⟩]

/-- The queue object of that test case after the five pushes. -/
def testQueue : Queue := ⟨some 0, some 4⟩

/-- The values `init_values` of that test case. -/
def init_values : List Nat := [2, 4, 6, 8, 10]

/-! ## Programs used as examples -/

/-- The statements `Queue a; a.push(6); a.pop(); Queue b; b.push(4);` (the sections of the test
case "An empty queue"). -/
def emptiedProgram : List (Op Nat) :=
  [.construct, .push 0 6, .pop 0, .construct, .push 1 4]

/-- The world after `emptiedProgram`: `a` is empty with a stale `last`, `b` holds `4`. -/
def emptiedWorld : World Nat :=
  ⟨[none, some ⟨4, none⟩], [⟨none, some 0⟩, ⟨some 1, some 1⟩]⟩

/-- The statements `Queue a; a.push(1); a.pop(); a.push(2); a.push(3);`: the queue is popped
down to empty and pushed again. -/
def repushProgram : List (Op Nat) :=
  [.construct, .push 0 1, .pop 0, .push 0 2, .push 0 3]

/-- The world after `repushProgram`. -/
def repushWorld : World Nat :=
  ⟨[none, some ⟨2, some 2⟩, some ⟨3, none⟩], [⟨some 1, some 2⟩]⟩

/-- The statements `Queue a; a.push(1); Queue b; b.push(2); b.push(3);`. -/
def pairProgram : List (Op Nat) :=
  [.construct, .push 0 1, .construct, .push 1 2, .push 1 3]

/-- The world after `pairProgram`: `a` holds `1`, `b` holds `2, 3`. -/
def pairWorld : World Nat :=
  ⟨[some ⟨1, none⟩, some ⟨2, some 2⟩, some ⟨3, none⟩], [⟨some 0, some 0⟩, ⟨some 1, some 2⟩]⟩

/-- The statements of the test section "copy assignment" before the assignment: the five
pushes on `queue`, then `auto second_list = Queue<int>{};`. -/
def testProgram : List (Op Nat) :=
  [.construct, .push 0 2, .push 0 4, .push 0 6, .push 0 8, .push 0 10, .construct]

/-- The world after `testProgram`: `queue` is object 0, `second_list` is object 1. -/
def testWorld : World Nat := ⟨testHeap, [testQueue, Queue.default]⟩

/-! ## Const iterators and `emplace` -/

/-- The class `Queue<T>::const_iterator`: a node pointer and the before-begin flag. -/
structure const_iterator where
  node : Option Nat
  before_begin : Bool
deriving DecidableEq, Repr

/-- The conversion `iterator::operator const_iterator() const noexcept
{ return const_iterator{ node }; }`: the constructor `const_iterator(Node* node,
bool before = false)` gets the node only, so the flag is its default `false`. -/
def iterator.toConst (it : iterator) : const_iterator := ⟨it.node, false⟩

/-- The member `const_iterator begin() const { return first.get(); }`. -/
def Queue.begin_const (q : Queue) : const_iterator := ⟨q.first, false⟩

/-- The member `const_iterator end() const { return {}; }`. -/
def Queue.end_const (_q : Queue) : const_iterator := ⟨none, false⟩

/-- The member `const_iterator cbegin() const { return begin(); }`. -/
def Queue.cbegin (q : Queue) : const_iterator := q.begin_const

/-- The member `const_iterator cend() const { return end(); }`. -/
def Queue.cend (q : Queue) : const_iterator := q.end_const

/-- The member `const_iterator before_begin() const { return { first.get(), true }; }`. -/
def Queue.before_begin_const (q : Queue) : const_iterator := ⟨q.first, true⟩

/-- The member `const_iterator cbefore_begin() const { return before_begin(); }`. -/
def Queue.cbefore_begin (q : Queue) : const_iterator := q.before_begin_const

/-- The operator `const_iterator::operator==`. -/
def const_iterator.eq (it other : const_iterator) : Bool :=
  it.node == other.node && it.before_begin == other.before_begin

/-- The operator `const_iterator::operator!=`. -/
def const_iterator.ne (it other : const_iterator) : Bool := !(it.eq other)

/-- The operator `const_iterator::operator*`: `node->data`. -/
def const_iterator.deref (h : Heap T) (it : const_iterator) : Option T :=
  (it.node.bind h.read).map Node.data

/-- The operator `const_iterator::operator++`: `if (before_begin) before_begin = false;
else node = node->next.get();`. -/
def const_iterator.incr (h : Heap T) (it : const_iterator) : Option const_iterator :=
  if it.before_begin then some ⟨it.node, false⟩
  else (it.node.bind h.read).map fun n => ⟨n.next, false⟩

/-- The iterator after `k` applications of `++`; `none` once `++` dereferences `nullptr`. -/
def iterator.advance (h : Heap T) : Nat → iterator → Option iterator
  | 0, it => some it
  | k + 1, it => (it.incr h).bind (iterator.advance h k)

/-- The const iterator after `k` applications of `++`. -/
def const_iterator.advance (h : Heap T) : Nat → const_iterator → Option const_iterator
  | 0, it => some it
  | k + 1, it => (it.incr h).bind (const_iterator.advance h k)

/-- Modelled from the spec: the member `emplace_front`, which `emplace` calls and which
neither `Queue.h` nor `main.cpp` declares.  Section 4.2 (a): "insert as new head, equivalent
to pushing to the front"; section 3: the tail reference points to the last node reachable
from head.  The new node holds `v` and owns the former head; it becomes `first`, and on an
empty queue `last` as well. -/
def Queue.emplace_front (h : Heap T) (q : Queue) (v : T) : Outcome (St T) Unit :=
  let newNode := h.fresh
  let h1 := h.alloc ⟨v, q.first⟩
  .ok () (h1, ⟨some newNode, if q.first == none then some newNode else q.last⟩)

/-- The member `iterator emplace(const_iterator pos, Args&&... args)`, the element built
from `args` being `v`.  At the before-begin position it calls `emplace_front` and returns
`begin()`.  Otherwise, when `pos.node->next` is not null, the new node takes over the old
`next` of `pos.node` and becomes its `next` (`Node(std::unique_ptr<Node>&& next, Args&&...)`),
and the iterator at the new node is returned.  When `pos.node->next` is null no branch is
taken and control flows off the end of the function, which returns a value: undefined. -/
def Queue.emplace (h : Heap T) (q : Queue) (pos : const_iterator) (v : T) :
    Outcome (St T) iterator :=
  if pos.before_begin then
    match q.emplace_front h v with
    | .ok _ (h1, q1) => .ok q1.begin (h1, q1)
    | .raised e st => .raised e st
    | .undefined => .undefined
  else
    match pos.node with
    | none => .undefined
    | some p =>
      match h.read p with
      | none => .undefined
      | some n =>
        match n.next with
        | some s =>
          let newNode := h.fresh
          let h1 := h.alloc ⟨v, some s⟩
          .ok ⟨some newNode, false⟩ (h1.write p ⟨n.data, some newNode⟩, q)
        | none => .undefined

/-! ## Element writes -/

/-- The statement `q.front() = v;`: `front()` returns a reference to `first->data`, which the
assignment overwrites. -/
def Queue.assignFront (h : Heap T) (q : Queue) (v : T) : Outcome (St T) Unit :=
  if !q.empty then
    match q.first with
    | none => .undefined
    | some a =>
      match h.read a with
      | none => .undefined
      | some n => .ok () (h.write a ⟨v, n.next⟩, q)
  else .raised .out_of_range (h, q)

/-- The statement `q.back() = v;`: `back()` returns a reference to `last->data`. -/
def Queue.assignBack (h : Heap T) (q : Queue) (v : T) : Outcome (St T) Unit :=
  if !q.empty then
    match q.last with
    | none => .undefined
    | some a =>
      match h.read a with
      | none => .undefined
      | some n => .ok () (h.write a ⟨v, n.next⟩, q)
  else .raised .out_of_range (h, q)

/-- The statement `*it = v;` for an iterator of the queue: `operator*` returns a reference
to `node->data`. -/
def iterator.assign (h : Heap T) (it : iterator) (v : T) : Option (Heap T) :=
  match it.node with
  | none => none
  | some a =>
    match h.read a with
    | none => none
    | some n => some (h.write a ⟨v, n.next⟩)

/-- A mutation of one queue object: `push(std::move(x))`, `push(x)`, `pop()`,
`front() = v`, `back() = v`, and `*it = v` for the iterator `k` steps after `begin()`. -/
inductive Mutation (T : Type) where
  | push (x : T)
  | pushCopy (x : T)
  | pop
  | assignFront (v : T)
  | assignBack (v : T)
  | assignAt (k : Nat) (v : T)
deriving DecidableEq, Repr

/-- The outcome of a mutation on the queue `q`. -/
def Queue.mutate (throwsOn : T → Bool) (h : Heap T) (q : Queue) :
    Mutation T → Outcome (St T) Unit
  | .push x => q.push h x
  | .pushCopy x => q.pushCopy throwsOn h x
  | .pop => q.pop h
  | .assignFront v => q.assignFront h v
  | .assignBack v => q.assignBack h v
  | .assignAt k v =>
    match (iterator.advance h k q.begin).bind fun it => it.assign h v with
    | none => .undefined
    | some h1 => .ok () (h1, q)

/-- A mutation applied to object `i` of a world. -/
def World.mutate (throwsOn : T → Bool) (w : World T) (i : Nat) (m : Mutation T) :
    Outcome (World T) Unit :=
  match w.objs[i]? with
  | none => .undefined
  | some q => w.store i (q.mutate throwsOn w.heap m)

/-- The world an outcome leaves, whether the call returned or threw. -/
def Outcome.world? (o : Outcome (World T) Unit) : Option (World T) :=
  match o with
  | .ok _ w1 => some w1
  | .raised _ w1 => some w1
  | .undefined => none

/-- A run of mutations, each on the object it names, in order; an exception is caught and
the run goes on with the world the exception left. -/
def World.mutateAll (throwsOn : T → Bool) : World T → List (Nat × Mutation T) → Option (World T)
  | w, [] => some w
  | w, im :: ims =>
    (w.mutate throwsOn im.1 im.2).world?.bind fun w1 => World.mutateAll throwsOn w1 ims

/-- The statements of the test section "copy construction": the five pushes on `queue`, then
`auto second_list = queue;`. -/
def copiedProgram : List (Op Nat) :=
  [.construct, .push 0 2, .push 0 4, .push 0 6, .push 0 8, .push 0 10, .copyConstruct 0]

/-- The world after `copiedProgram`: `queue` is object 0 and its copy `second_list` is
object 1, with nodes of its own. -/
def copiedWorld : World Nat :=
  ⟨[some ⟨2, some 1⟩, some ⟨4, some 2⟩, some ⟨6, some 3⟩, some ⟨8, some 4⟩, some ⟨10, none⟩,
    some ⟨2, some 6⟩, some ⟨4, some 7⟩, some ⟨6, some 8⟩, some ⟨8, some 9⟩, some ⟨10, none⟩],
    [⟨some 0, some 4⟩, ⟨some 5, some 9⟩]⟩

/-! ## The queue of the specification -/

/-- The queue of the specification, in its words (sections 4.2 and 8): an ordered sequence
of elements; `push` puts the value at the back; `pop` on an empty queue is rejected and
changes nothing, and on a non-empty queue it removes the front element.  The result is the
sequence after the calls, the number of `pop` calls that succeeded and the number of calls
that were rejected. -/
def specRunCalls : List T → List (Call T) → List T × Nat × Nat
  | xs, [] => (xs, 0, 0)
  | xs, .push x :: cs => specRunCalls (xs ++ [x]) cs
  | xs, .pop :: cs =>
    match xs with
    | [] => ((specRunCalls [] cs).1, (specRunCalls [] cs).2.1, (specRunCalls [] cs).2.2 + 1)
    | _ :: ys => ((specRunCalls ys cs).1, (specRunCalls ys cs).2.1 + 1, (specRunCalls ys cs).2.2)

/-! # Theorems -/

/-! ## Heap cells -/

theorem Heap.read_lt {h : Heap T} {a : Nat} {n : Node T} (hr : h.read a = some n) :
    a < h.length := by
  unfold Heap.read at hr
  by_contra hlt
  rw [List.get?_eq_none.mpr (by omega)] at hr
  simp at hr

theorem Heap.read_alloc_lt (h : Heap T) (n : Node T) {a : Nat} (ha : a < h.length) :
    (h.alloc n).read a = h.read a := by
  simp [Heap.read, Heap.alloc, List.getElem?_append_left ha]

theorem Heap.read_alloc_fresh (h : Heap T) (n : Node T) :
    (h.alloc n).read h.length = some n := by
  simp [Heap.read, Heap.alloc]

theorem Heap.read_write_ne (h : Heap T) (n : Node T) {a b : Nat} (hab : a ≠ b) :
    (h.write b n).read a = h.read a := by
  simp [Heap.read, Heap.write, List.getElem?_set_ne (Ne.symm hab)]

theorem Heap.read_write_eq (h : Heap T) (n : Node T) {b : Nat} (hb : b < h.length) :
    (h.write b n).read b = some n := by
  simp [Heap.read, Heap.write, hb]

theorem Heap.read_free_ne (h : Heap T) {a b : Nat} (hab : a ≠ b) :
    (h.free b).read a = h.read a := by
  simp [Heap.read, Heap.free, List.getElem?_set_ne (Ne.symm hab)]

theorem Heap.read_free_eq (h : Heap T) (b : Nat) :
    (h.free b).read b = none := by
  unfold Heap.read Heap.free
  rw [List.get?_eq_getElem?, List.getElem?_set]
  simp only [if_true]
  split <;> simp

/-! ## Chain segments -/

theorem seg_nil {h : Heap T} {p stop : Option Nat} : Seg h p [] stop ↔ p = stop := Iff.rfl

theorem seg_cons {h : Heap T} {p stop : Option Nat} {a : Nat} {as : List Nat} :
    Seg h p (a :: as) stop ↔ p = some a ∧ ∃ n, h.read a = some n ∧ Seg h n.next as stop := by
  constructor
  · rintro ⟨hp, hs, hrest⟩
    obtain ⟨n, hn⟩ := Option.isSome_iff_exists.mp hs
    rw [hn] at hrest
    exact ⟨hp, n, hn, hrest⟩
  · rintro ⟨hp, n, hn, hrest⟩
    refine ⟨hp, by simp [hn], ?_⟩
    rw [hn]
    exact hrest

theorem seg_frame {h h1 : Heap T} {as : List Nat} (hfr : ∀ a ∈ as, h1.read a = h.read a) :
    ∀ {p stop : Option Nat}, Seg h p as stop → Seg h1 p as stop := by
  induction as with
  | nil => intro p stop hs; exact hs
  | cons a as ih =>
    intro p stop hs
    obtain ⟨hp, n, hn, hrest⟩ := seg_cons.mp hs
    refine seg_cons.mpr ⟨hp, n, ?_, ih (fun b hb => hfr b (List.mem_cons_of_mem _ hb)) hrest⟩
    rw [hfr a (List.mem_cons_self _ _)]
    exact hn

theorem seg_live {h : Heap T} {as : List Nat} :
    ∀ {p stop : Option Nat}, Seg h p as stop → ∀ a ∈ as, ∃ n, h.read a = some n := by
  induction as with
  | nil => intro p stop _ a ha; simp at ha
  | cons b as ih =>
    intro p stop hs a ha
    obtain ⟨_, n, hn, hrest⟩ := seg_cons.mp hs
    rcases List.mem_cons.mp ha with rfl | hmem
    · exact ⟨n, hn⟩
    · exact ih hrest a hmem

theorem seg_lt {h : Heap T} {as : List Nat} {p stop : Option Nat} (hs : Seg h p as stop) :
    ∀ a ∈ as, a < h.length := by
  intro a ha
  obtain ⟨n, hn⟩ := seg_live hs a ha
  exact Heap.read_lt hn

theorem seg_append {h : Heap T} {as bs : List Nat} :
    ∀ {p stop : Option Nat},
      Seg h p (as ++ bs) stop ↔ ∃ m, Seg h p as m ∧ Seg h m bs stop := by
  induction as with
  | nil =>
    intro p stop
    constructor
    · intro hs; exact ⟨p, rfl, hs⟩
    · rintro ⟨m, hm, hs⟩
      rw [seg_nil.mp hm]
      exact hs
  | cons a as ih =>
    intro p stop
    rw [List.cons_append, seg_cons]
    constructor
    · rintro ⟨hp, n, hn, hrest⟩
      obtain ⟨m, h1, h2⟩ := ih.mp hrest
      exact ⟨m, seg_cons.mpr ⟨hp, n, hn, h1⟩, h2⟩
    · rintro ⟨m, h1, h2⟩
      obtain ⟨hp, n, hn, hrest⟩ := seg_cons.mp h1
      exact ⟨hp, n, hn, ih.mpr ⟨m, hrest, h2⟩⟩

theorem elems_nil (h : Heap T) : elems h [] = [] := rfl

theorem elems_cons {h : Heap T} {a : Nat} {n : Node T} (hn : h.read a = some n)
    (as : List Nat) : elems h (a :: as) = n.data :: elems h as := by
  simp [elems, List.filterMap_cons, hn]

theorem elems_append (h : Heap T) (as bs : List Nat) :
    elems h (as ++ bs) = elems h as ++ elems h bs := by
  simp [elems, List.filterMap_append]

theorem elems_frame {h h1 : Heap T} {as : List Nat} (hfr : ∀ a ∈ as, h1.read a = h.read a) :
    elems h1 as = elems h as := by
  induction as with
  | nil => rfl
  | cons a as ih =>
    have ha := hfr a (List.mem_cons_self _ _)
    have ih1 := ih (fun b hb => hfr b (List.mem_cons_of_mem _ hb))
    simp only [elems, List.filterMap_cons] at ih1 ⊢
    rw [ha, ih1]

theorem elems_length {h : Heap T} {as : List Nat} :
    ∀ {p stop : Option Nat}, Seg h p as stop → (elems h as).length = as.length := by
  induction as with
  | nil => intro p stop _; rfl
  | cons a as ih =>
    intro p stop hs
    obtain ⟨_, n, hn, hrest⟩ := seg_cons.mp hs
    rw [elems_cons hn, List.length_cons, List.length_cons, ih hrest]

theorem nodup_length_le {as : List Nat} {n : Nat} (hnd : as.Nodup) (hlt : ∀ a ∈ as, a < n) :
    as.length ≤ n := by
  have hsub : as ⊆ List.range n := fun a ha => List.mem_range.mpr (hlt a ha)
  have := (List.Nodup.subperm hnd hsub).length_le
  simpa using this

/-! ## Observers on a valid queue -/

theorem sizeLoop_seg {h : Heap T} {as : List Nat} :
    ∀ {p : Option Nat} (fuel acc : Nat), Seg h p as none → as.length ≤ fuel →
      acc + as.length ≤ INT_MAX → sizeLoop h fuel p acc = some (acc + as.length) := by
  induction as with
  | nil =>
    intro p fuel acc hs _ _
    rw [seg_nil.mp hs]
    cases fuel <;> simp [sizeLoop]
  | cons a as ih =>
    intro p fuel acc hs hfuel hmax
    obtain ⟨hp, n, hn, hrest⟩ := seg_cons.mp hs
    cases fuel with
    | zero => simp at hfuel
    | succ fuel =>
      subst hp
      simp only [List.length_cons] at hmax
      have hlt : acc < INT_MAX := by omega
      simp only [sizeLoop, hn, hlt, if_true]
      rw [ih fuel (acc + 1) hrest (by simpa using hfuel) (by omega)]
      simp only [List.length_cons]
      congr 1
      omega

theorem sizeLoop_some {h : Heap T} {as : List Nat} :
    ∀ {p : Option Nat} (fuel acc n : Nat), Seg h p as none →
      sizeLoop h fuel p acc = some n → n = acc + as.length ∧ n ≤ acc.max INT_MAX := by
  induction as with
  | nil =>
    intro p fuel acc n hs hsz
    rw [seg_nil.mp hs] at hsz
    have : n = acc := by
      cases fuel <;> simp [sizeLoop] at hsz <;> exact hsz.symm
    subst this
    exact ⟨rfl, Nat.le_max_left _ _⟩
  | cons a as ih =>
    intro p fuel acc n hs hsz
    obtain ⟨hp, m, hm, hrest⟩ := seg_cons.mp hs
    subst hp
    cases fuel with
    | zero => simp [sizeLoop] at hsz
    | succ fuel =>
      simp only [sizeLoop, hm] at hsz
      by_cases hlt : acc < INT_MAX
      · simp only [hlt, if_true] at hsz
        obtain ⟨h1, h2⟩ := ih fuel (acc + 1) n hrest hsz
        refine ⟨by simp only [List.length_cons]; omega, ?_⟩
        have : (acc + 1).max INT_MAX = INT_MAX := Nat.max_eq_right (by omega)
        rw [this] at h2
        exact Nat.le_trans h2 (Nat.le_max_right _ _)
      · simp [hlt] at hsz

theorem traverse_seg {h : Heap T} {as : List Nat} :
    ∀ {p : Option Nat} (fuel : Nat), Seg h p as none → as.length ≤ fuel →
      traverse h fuel ⟨p, false⟩ ⟨none, false⟩ = some (elems h as) := by
  induction as with
  | nil =>
    intro p fuel hs _
    rw [seg_nil.mp hs]
    cases fuel <;> simp [traverse, iterator.ne, iterator.eq, elems]
  | cons a as ih =>
    intro p fuel hs hfuel
    obtain ⟨hp, n, hn, hrest⟩ := seg_cons.mp hs
    cases fuel with
    | zero => simp at hfuel
    | succ fuel =>
      subst hp
      have ih1 := ih fuel hrest (by simpa using hfuel)
      simp [traverse, iterator.ne, iterator.eq, iterator.deref, iterator.incr, hn, ih1,
        elems_cons hn]

theorem owns_length_le {h : Heap T} {q : Queue} {as : List Nat} (ho : Owns h q as) :
    as.length ≤ h.length :=
  nodup_length_le ho.2.1 (seg_lt ho.1)

theorem owns_size {h : Heap T} {q : Queue} {as : List Nat} (ho : Owns h q as)
    (hmax : as.length ≤ INT_MAX) : q.size h = some as.length := by
  have := sizeLoop_seg h.length 0 ho.1 (owns_length_le ho) (by simpa using hmax)
  simpa [Queue.size] using this

theorem owns_size_some {h : Heap T} {q : Queue} {as : List Nat} (ho : Owns h q as)
    {n : Nat} (hn : q.size h = some n) : n = as.length ∧ n ≤ INT_MAX := by
  obtain ⟨h1, h2⟩ := sizeLoop_some h.length 0 n ho.1 hn
  exact ⟨by simpa using h1, by simpa using h2⟩

theorem owns_size_overflow {h : Heap T} {q : Queue} {as : List Nat} (ho : Owns h q as)
    (hbig : INT_MAX < as.length) : q.size h = none := by
  cases hs : q.size h with
  | none => rfl
  | some n =>
    obtain ⟨h1, h2⟩ := owns_size_some ho hs
    omega

theorem owns_size_zero {h : Heap T} {q : Queue} {as : List Nat} (ho : Owns h q as) :
    q.size h = some 0 ↔ as = [] := by
  constructor
  · intro hz
    exact List.length_eq_zero.mp (owns_size_some ho hz).1.symm
  · intro he
    subst he
    exact owns_size ho (Nat.zero_le _)

theorem owns_toList {h : Heap T} {q : Queue} {as : List Nat} (ho : Owns h q as) :
    q.toList h = some (elems h as) :=
  traverse_seg h.length ho.1 (owns_length_le ho)

theorem owns_empty {h : Heap T} {q : Queue} {as : List Nat} (ho : Owns h q as) :
    q.empty = true ↔ as = [] := by
  cases as with
  | nil => simp [Queue.empty, seg_nil.mp ho.1]
  | cons a as => simp [Queue.empty, (seg_cons.mp ho.1).1]

theorem owns_frame {h h1 : Heap T} {q : Queue} {as : List Nat}
    (hfr : ∀ a ∈ as, h1.read a = h.read a) (ho : Owns h q as) : Owns h1 q as :=
  ⟨seg_frame hfr ho.1, ho.2.1, ho.2.2⟩

theorem holds_size {h : Heap T} {q : Queue} {xs : List T} (hq : Holds h q xs)
    (hmax : xs.length ≤ INT_MAX) : q.size h = some xs.length := by
  obtain ⟨as, ho, rfl⟩ := hq
  rw [elems_length ho.1] at hmax ⊢
  exact owns_size ho hmax

theorem holds_size_some {h : Heap T} {q : Queue} {xs : List T} (hq : Holds h q xs)
    {n : Nat} (hn : q.size h = some n) : n = xs.length ∧ n ≤ INT_MAX := by
  obtain ⟨as, ho, rfl⟩ := hq
  rw [elems_length ho.1]
  exact owns_size_some ho hn

theorem holds_toList {h : Heap T} {q : Queue} {xs : List T} (hq : Holds h q xs) :
    q.toList h = some xs := by
  obtain ⟨as, ho, rfl⟩ := hq
  exact owns_toList ho

theorem holds_empty {h : Heap T} {q : Queue} {xs : List T} (hq : Holds h q xs) :
    q.empty = true ↔ xs = [] := by
  obtain ⟨as, ho, rfl⟩ := hq
  rw [owns_empty ho]
  constructor
  · rintro rfl; rfl
  · intro he
    have := elems_length ho.1
    rw [he] at this
    exact List.length_eq_zero.mp this.symm

theorem holds_empty_queue (h : Heap T) (last : Option Nat) :
    Holds h ⟨none, last⟩ ([] : List T) :=
  ⟨[], ⟨rfl, List.nodup_nil, Or.inl rfl⟩, rfl⟩

theorem holds_default (h : Heap T) : Holds h Queue.default ([] : List T) :=
  holds_empty_queue h none

theorem owns_front {h : Heap T} {q : Queue} {a : Nat} {as : List Nat} {n : Node T}
    (ho : Owns h q (a :: as)) (hn : h.read a = some n) : q.front h = .ok n.data (h, q) := by
  have hp := (seg_cons.mp ho.1).1
  simp [Queue.front, Queue.empty, hp, hn]

theorem owns_back {h : Heap T} {q : Queue} {as : List Nat} {l : Nat} {n : Node T}
    (ho : Owns h q (as ++ [l])) (hn : h.read l = some n) : q.back h = .ok n.data (h, q) := by
  have hne : q.empty = false := by
    cases hq : q.empty
    · rfl
    · have := (owns_empty ho).mp hq
      simp at this
  have hl : q.last = some l := by
    rcases ho.2.2 with h0 | h1
    · simp at h0
    · simpa using h1
  simp [Queue.back, hne, hl, hn]

/-! ## `push` and `pop` on a valid queue -/

theorem Heap.read_alloc_ne (h : Heap T) (n : Node T) {a : Nat} (ha : a ≠ h.length) :
    (h.alloc n).read a = h.read a := by
  rcases Nat.lt_or_gt_of_ne ha with hlt | hgt
  · exact Heap.read_alloc_lt h n hlt
  · have h1 : h.get? a = none := List.get?_eq_none.mpr (by omega)
    have h2 : (h.alloc n).get? a = none :=
      List.get?_eq_none.mpr (by simp [Heap.alloc]; omega)
    unfold Heap.read
    rw [h1, h2]

theorem Heap.length_alloc (h : Heap T) (n : Node T) : (h.alloc n).length = h.length + 1 := by
  simp [Heap.alloc]

theorem Heap.length_write (h : Heap T) (a : Nat) (n : Node T) :
    (h.write a n).length = h.length := by
  simp [Heap.write]

theorem Heap.length_free (h : Heap T) (a : Nat) : (h.free a).length = h.length := by
  simp [Heap.free]

theorem seg_last_next {h : Heap T} {p : Option Nat} {bs : List Nat} {l : Nat}
    (hs : Seg h p (bs ++ [l]) none) :
    Seg h p bs (some l) ∧ ∃ n, h.read l = some n ∧ n.next = none := by
  obtain ⟨m, h1, h2⟩ := seg_append.mp hs
  obtain ⟨hm, n, hn, hnil⟩ := seg_cons.mp h2
  subst hm
  exact ⟨h1, n, hn, seg_nil.mp hnil⟩

theorem push_spec {h : Heap T} {q : Queue} {as : List Nat} (ho : Owns h q as) (x : T) :
    ∃ h1 q1, q.push h x = .ok () (h1, q1) ∧ Owns h1 q1 (as ++ [h.length]) ∧
      elems h1 (as ++ [h.length]) = elems h as ++ [x] ∧ h1.length = h.length + 1 ∧
      ∀ a, a ∉ as → a ≠ h.length → h1.read a = h.read a := by
  obtain ⟨hseg, hnd, hlast⟩ := ho
  rcases List.eq_nil_or_concat' as with rfl | ⟨bs, l, rfl⟩
  · have hf : q.first = none := seg_nil.mp hseg
    refine ⟨h.alloc ⟨x, none⟩, ⟨some h.length, some h.length⟩, ?_, ?_, ?_, ?_, ?_⟩
    · simp [Queue.push, hf, Heap.fresh]
    · refine ⟨?_, by simp, Or.inr (by simp)⟩
      exact seg_cons.mpr ⟨rfl, _, Heap.read_alloc_fresh h _, rfl⟩
    · simp [elems, Heap.read_alloc_fresh]
    · exact Heap.length_alloc h _
    · intro a _ ha
      exact Heap.read_alloc_ne h _ ha
  · obtain ⟨hbs, n, hn, hnext⟩ := seg_last_next hseg
    have hl : q.last = some l := by
      rcases hlast with h0 | h1
      · simp at h0
      · simpa using h1
    have hlt : l < h.length := Heap.read_lt hn
    have hfirst : q.first ≠ none := by
      intro hq
      have := (owns_empty ⟨hseg, hnd, hlast⟩).mp (by simp [Queue.empty, hq])
      simp at this
    have hnd' : l ∉ bs := by
      have := List.nodup_append.mp hnd
      intro hmem
      exact this.2.2 hmem (List.mem_singleton_self l)
    have hr1 : (h.alloc ⟨x, none⟩).read l = some n := by
      rw [Heap.read_alloc_lt h _ hlt]; exact hn
    have hwl : l < (h.alloc ⟨x, none⟩).length := by
      rw [Heap.length_alloc]; omega
    have hrl : ((h.alloc ⟨x, none⟩).write l ⟨n.data, some h.length⟩).read l
        = some ⟨n.data, some h.length⟩ := Heap.read_write_eq _ _ hwl
    have hrn : ((h.alloc ⟨x, none⟩).write l ⟨n.data, some h.length⟩).read h.length
        = some ⟨x, none⟩ := by
      rw [Heap.read_write_ne _ _ (Nat.ne_of_gt hlt)]
      exact Heap.read_alloc_fresh h _
    refine ⟨(h.alloc ⟨x, none⟩).write l ⟨n.data, some h.length⟩, ⟨q.first, some h.length⟩,
      ?_, ?_, ?_, ?_, ?_⟩
    · simp [Queue.push, hfirst, hl, hr1, hnext, destroyChain, Heap.fresh]
    · refine ⟨?_, ?_, Or.inr (by simp)⟩
      · rw [List.append_assoc]
        refine seg_append.mpr ⟨some l, seg_frame ?_ hbs, ?_⟩
        · intro a ha
          have hal : a ≠ l := fun e => hnd' (e ▸ ha)
          rw [Heap.read_write_ne _ _ hal, Heap.read_alloc_lt h _ (seg_lt hbs a ha)]
        · exact seg_cons.mpr ⟨rfl, _, hrl, seg_cons.mpr ⟨rfl, _, hrn, rfl⟩⟩
      · refine List.nodup_append.mpr ⟨hnd, by simp, ?_⟩
        intro a ha hb
        rw [List.mem_singleton.mp hb] at ha
        exact Nat.lt_irrefl _ (seg_lt hseg _ ha)
    · have hfr : elems ((h.alloc ⟨x, none⟩).write l ⟨n.data, some h.length⟩) bs
          = elems h bs := by
        apply elems_frame
        intro a ha
        have hal : a ≠ l := fun e => hnd' (e ▸ ha)
        rw [Heap.read_write_ne _ _ hal, Heap.read_alloc_lt h _ (seg_lt hbs a ha)]
      rw [elems_append, elems_append, elems_append, hfr, elems_cons hrl, elems_cons hrn,
        elems_cons hn]
      simp [elems]
    · rw [Heap.length_write, Heap.length_alloc]
    · intro a hmem ha
      have hal : a ≠ l := fun e => hmem (by simp [e])
      rw [Heap.read_write_ne _ _ hal, Heap.read_alloc_ne h _ ha]

theorem pop_spec {h : Heap T} {q : Queue} {a : Nat} {as : List Nat}
    (ho : Owns h q (a :: as)) :
    ∃ n, h.read a = some n ∧ q.pop h = .ok () (h.free a, ⟨n.next, q.last⟩) ∧
      Owns (h.free a) ⟨n.next, q.last⟩ as ∧ elems (h.free a) as = elems h as := by
  obtain ⟨hseg, hnd, hlast⟩ := ho
  obtain ⟨hp, n, hn, hrest⟩ := seg_cons.mp hseg
  have hna : a ∉ as := (List.nodup_cons.mp hnd).1
  have hfr : ∀ b ∈ as, (h.free a).read b = h.read b := fun b hb =>
    Heap.read_free_ne h (fun e => hna (e ▸ hb))
  refine ⟨n, hn, ?_, ⟨seg_frame hfr hrest, (List.nodup_cons.mp hnd).2, ?_⟩, elems_frame hfr⟩
  · simp [Queue.pop, Queue.empty, Queue.do_unchecked_pop, hp, hn]
  · cases as with
    | nil => exact Or.inl rfl
    | cons b bs =>
      right
      rcases hlast with h0 | h1
      · simp at h0
      · simpa [List.getLast?_cons_cons] using h1

/-! ## Specifications over `Holds` -/

theorem holds_push {h : Heap T} {q : Queue} {xs : List T} (hq : Holds h q xs) (x : T) :
    ∃ h1 q1, q.push h x = .ok () (h1, q1) ∧ Holds h1 q1 (xs ++ [x]) := by
  obtain ⟨as, ho, rfl⟩ := hq
  obtain ⟨h1, q1, hp, ho1, he, _, _⟩ := push_spec ho x
  exact ⟨h1, q1, hp, as ++ [h.length], ho1, he⟩

theorem holds_pop {h : Heap T} {q : Queue} {x : T} {rest : List T}
    (hq : Holds h q (x :: rest)) :
    ∃ h1 q1, q.front h = .ok x (h, q) ∧ q.pop h = .ok () (h1, q1) ∧ Holds h1 q1 rest := by
  obtain ⟨as, ho, he⟩ := hq
  cases as with
  | nil => simp [elems] at he
  | cons a as =>
    obtain ⟨n, hn, hp, ho1, he1⟩ := pop_spec ho
    rw [elems_cons hn] at he
    obtain ⟨hx, hrest⟩ := List.cons.inj he
    refine ⟨_, _, ?_, hp, as, ho1, he1.trans hrest⟩
    rw [← hx]
    exact owns_front ho hn

theorem holds_front {h : Heap T} {q : Queue} {x : T} {rest : List T}
    (hq : Holds h q (x :: rest)) : q.front h = .ok x (h, q) := by
  obtain ⟨_, _, hf, _⟩ := holds_pop hq
  exact hf

theorem holds_back {h : Heap T} {q : Queue} {x : T} {pre : List T}
    (hq : Holds h q (pre ++ [x])) : q.back h = .ok x (h, q) := by
  obtain ⟨as, ho, he⟩ := hq
  rcases List.eq_nil_or_concat' as with rfl | ⟨bs, l, rfl⟩
  · simp [elems] at he
  · obtain ⟨_, n, hn, _⟩ := seg_last_next ho.1
    rw [elems_append, elems_cons hn, elems_nil] at he
    have hx : n.data = x := by
      have := congrArg List.getLast? he
      simpa using this
    rw [← hx]
    exact owns_back ho hn

theorem pushEach_holds (h : Heap T) (q : Queue) (ys xs : List T) (hq : Holds h q ys) :
    ∃ h1 q1, pushEach Queue.push h q xs = .ok () (h1, q1) ∧ Holds h1 q1 (ys ++ xs) := by
  induction xs generalizing h q ys with
  | nil => exact ⟨h, q, rfl, by simpa using hq⟩
  | cons x xs ih =>
    obtain ⟨h1, q1, hp, hq1⟩ := holds_push hq x
    obtain ⟨h2, q2, hr, hq2⟩ := ih h1 q1 (ys ++ [x]) hq1
    refine ⟨h2, q2, ?_, by simpa using hq2⟩
    simp only [pushEach, hp]
    exact hr

theorem pushEach_pushCopy (h : Heap T) (q : Queue) (xs : List T) :
    pushEach (Queue.pushCopy fun _ => false) h q xs = pushEach Queue.push h q xs := by
  induction xs generalizing h q with
  | nil => rfl
  | cons x xs ih =>
    simp only [pushEach, Queue.pushCopy, Bool.false_eq_true, if_false]
    cases q.push h x with
    | ok v st => obtain ⟨h1, q1⟩ := st; exact ih h1 q1
    | raised e st => rfl
    | undefined => rfl

/-- C1: pushing the elements of `xs` in order onto an empty queue (`first` is `nullptr`,
whatever `last` is: default-constructed or popped down to empty), with either overload of
`push` (the element copy not throwing), returns normally, and the traversal from `begin()`
to `end()` then yields exactly `xs`; `size()` returns the length of `xs` when that is at
most `INT_MAX`. -/
theorem c1_push_then_traverse (h : Heap T) (last : Option Nat) (xs : List T) :
    ∃ h1 q1, pushEach Queue.push h ⟨none, last⟩ xs = .ok () (h1, q1) ∧
      pushEach (Queue.pushCopy fun _ => false) h ⟨none, last⟩ xs = .ok () (h1, q1) ∧
      traverse h1 h1.length q1.begin q1.end = some xs ∧
      (xs.length ≤ INT_MAX → q1.size h1 = some xs.length) := by
  obtain ⟨h1, q1, hr, hq⟩ := pushEach_holds h ⟨none, last⟩ [] xs (holds_empty_queue h last)
  rw [List.nil_append] at hq
  exact ⟨h1, q1, hr, (pushEach_pushCopy h _ xs).trans hr, holds_toList hq, holds_size hq⟩

/-- Witness of C1: the pushes `2, 4, 6, 8, 10` of the test case on a default-constructed
queue. -/
theorem c1_push_then_traverse_witness :
    ∃ h1 q1, pushEach Queue.push ([] : Heap Nat) ⟨none, none⟩ init_values = .ok () (h1, q1) ∧
      pushEach (Queue.pushCopy fun _ => false) ([] : Heap Nat) ⟨none, none⟩ init_values
        = .ok () (h1, q1) ∧
      traverse h1 h1.length q1.begin q1.end = some init_values ∧
      (init_values.length ≤ INT_MAX → q1.size h1 = some init_values.length) :=
  c1_push_then_traverse ([] : Heap Nat) none init_values

/-- C2: on a valid queue holding `x :: rest`, `front()` returns `x`, and `pop()` returns
normally and leaves a valid queue holding exactly `rest`, which the traversal from `begin()`
to `end()` yields; `size()` returns the length of `rest` when that is at most `INT_MAX`. -/
theorem c2_pop_removes_front (h : Heap T) (q : Queue) (x : T) (rest : List T)
    (hq : Holds h q (x :: rest)) :
    ∃ h1 q1, q.front h = .ok x (h, q) ∧ q.pop h = .ok () (h1, q1) ∧ Holds h1 q1 rest ∧
      q1.toList h1 = some rest ∧ (rest.length ≤ INT_MAX → q1.size h1 = some rest.length) := by
  obtain ⟨h1, q1, hf, hp, hq1⟩ := holds_pop hq
  exact ⟨h1, q1, hf, hp, hq1, holds_toList hq1, holds_size hq1⟩

/-- The heap and the queue after `push(2); push(4); push(6); push(8); push(10)`. -/
theorem pushEach_test :
    pushEach Queue.push ([] : Heap Nat) Queue.default [2, 4, 6, 8, 10] =
      .ok () (testHeap, testQueue) := by
  decide

/-- Witness of C2: the queue of the test case, `2, 4, 6, 8, 10`; after one `pop()` the
front is `4` and the size is `4`. -/
theorem c2_pop_removes_front_witness :
    Holds testHeap testQueue (2 :: [4, 6, 8, 10]) ∧
      ∃ h1 q1,
        Queue.front testHeap testQueue = .ok 2
            (testHeap, testQueue) ∧
        Queue.pop testHeap testQueue = .ok () (h1, q1) ∧
        Holds h1 q1 [4, 6, 8, 10] ∧ q1.toList h1 = some [4, 6, 8, 10] ∧
        ([4, 6, 8, 10].length ≤ INT_MAX → q1.size h1 = some [4, 6, 8, 10].length) :=
  ⟨⟨[0, 1, 2, 3, 4], by decide, by decide⟩,
    c2_pop_removes_front _ _ 2 [4, 6, 8, 10] ⟨[0, 1, 2, 3, 4], by decide, by decide⟩⟩

theorem pop_empty (h : Heap T) (last : Option Nat) :
    Queue.pop h ⟨none, last⟩ = .raised .out_of_range (h, ⟨none, last⟩) := rfl

theorem holds_nil_first {h : Heap T} {q : Queue} (hq : Holds h q ([] : List T)) :
    q.first = none := by
  have := (holds_empty hq).mpr rfl
  simpa [Queue.empty] using this

theorem runCalls_holds (calls : List (Call T)) :
    ∀ (h : Heap T) (q : Queue) (ys : List T), Holds h q ys →
      ∃ h1 q1 pops rejected zs, runCalls (h, q) calls = some ((h1, q1), pops, rejected) ∧
        Holds h1 q1 zs ∧ zs.length + pops = ys.length + Call.pushes calls ∧
        Call.pushes calls + pops + rejected = calls.length := by
  induction calls with
  | nil =>
    intro h q ys hq
    exact ⟨h, q, 0, 0, ys, rfl, hq, rfl, rfl⟩
  | cons c cs ih =>
    intro h q ys hq
    cases c with
    | push x =>
      obtain ⟨h1, q1, hp, hq1⟩ := holds_push hq x
      obtain ⟨h2, q2, pops, rej, zs, hr, hq2, hlen, hcnt⟩ := ih h1 q1 _ hq1
      refine ⟨h2, q2, pops, rej, zs, ?_, hq2, ?_, ?_⟩
      · simp [runCalls, Call.exec, hp, hr]
      · simp only [List.length_append, List.length_singleton] at hlen
        simp only [Call.pushes]
        omega
      · simp only [Call.pushes, List.length_cons]
        omega
    | pop =>
      cases ys with
      | nil =>
        have hf := holds_nil_first hq
        have hp : q.pop h = .raised .out_of_range (h, q) := by
          cases q with
          | mk first last =>
            simp only at hf
            subst hf
            rfl
        obtain ⟨h2, q2, pops, rej, zs, hr, hq2, hlen, hcnt⟩ := ih h q _ hq
        refine ⟨h2, q2, pops, rej + 1, zs, ?_, hq2, ?_, ?_⟩
        · simp [runCalls, Call.exec, hp, hr]
        · simpa [Call.pushes] using hlen
        · simp only [Call.pushes, List.length_cons]
          omega
      | cons y ys =>
        obtain ⟨h1, q1, _, hp, hq1⟩ := holds_pop hq
        obtain ⟨h2, q2, pops, rej, zs, hr, hq2, hlen, hcnt⟩ := ih h1 q1 _ hq1
        refine ⟨h2, q2, pops + 1, rej, zs, ?_, hq2, ?_, ?_⟩
        · simp [runCalls, Call.exec, hp, hr]
        · simp only [Call.pushes, List.length_cons]
          omega
        · simp only [Call.pushes, List.length_cons]
          omega

theorem runCalls_refines (calls : List (Call T)) :
    ∀ (h : Heap T) (q : Queue) (ys : List T), Holds h q ys →
      ∃ h1 q1, runCalls (h, q) calls
          = some ((h1, q1), (specRunCalls ys calls).2.1, (specRunCalls ys calls).2.2) ∧
        Holds h1 q1 (specRunCalls ys calls).1 := by
  induction calls with
  | nil =>
    intro h q ys hq
    exact ⟨h, q, rfl, hq⟩
  | cons c cs ih =>
    intro h q ys hq
    cases c with
    | push x =>
      obtain ⟨h1, q1, hp, hq1⟩ := holds_push hq x
      obtain ⟨h2, q2, hr, hq2⟩ := ih h1 q1 _ hq1
      exact ⟨h2, q2, by simp [runCalls, Call.exec, hp, hr, specRunCalls], hq2⟩
    | pop =>
      cases ys with
      | nil =>
        have hf := holds_nil_first hq
        have hp : q.pop h = .raised .out_of_range (h, q) := by
          cases q with
          | mk first last =>
            simp only at hf
            subst hf
            rfl
        obtain ⟨h2, q2, hr, hq2⟩ := ih h q _ hq
        exact ⟨h2, q2, by simp [runCalls, Call.exec, hp, hr, specRunCalls], hq2⟩
      | cons y ys =>
        obtain ⟨h1, q1, _, hp, hq1⟩ := holds_pop hq
        obtain ⟨h2, q2, hr, hq2⟩ := ih h1 q1 _ hq1
        exact ⟨h2, q2, by simp [runCalls, Call.exec, hp, hr, specRunCalls], hq2⟩

theorem specRunCalls_counts (calls : List (Call T)) :
    ∀ ys : List T,
      (specRunCalls ys calls).1.length + (specRunCalls ys calls).2.1
          = ys.length + Call.pushes calls ∧
        Call.pushes calls + (specRunCalls ys calls).2.1 + (specRunCalls ys calls).2.2
          = calls.length := by
  induction calls with
  | nil => intro ys; exact ⟨rfl, rfl⟩
  | cons c cs ih =>
    intro ys
    cases c with
    | push x =>
      obtain ⟨h1, h2⟩ := ih (ys ++ [x])
      simp only [specRunCalls, Call.pushes, List.length_cons]
      simp only [List.length_append, List.length_singleton] at h1
      exact ⟨by omega, by omega⟩
    | pop =>
      cases ys with
      | nil =>
        obtain ⟨h1, h2⟩ := ih []
        simp only [specRunCalls, Call.pushes, List.length_cons]
        simp only [List.length_nil] at h1 ⊢
        exact ⟨by omega, by omega⟩
      | cons y ys =>
        obtain ⟨h1, h2⟩ := ih ys
        simp only [specRunCalls, Call.pushes, List.length_cons]
        exact ⟨by omega, by omega⟩

/-- C3: any sequence of `push` and `pop` calls on an empty queue (`first` is `nullptr`, as
after default construction) runs as on the queue of the specification: a `pop` returns
exactly when the queue holds an element, and is rejected leaving everything as it was
otherwise.  The queue ends holding as many elements as there were `push` calls minus `pop`
calls that succeeded (which never exceed the pushes); `size()` returns that number when it is
at most `INT_MAX`, and it is what `size()` returns whenever `size()` returns; and `pop()` on
a queue whose `first` is `nullptr` throws `out_of_range` and leaves heap and queue
unchanged. -/
theorem c3_size_counts (h : Heap T) (last : Option Nat) (calls : List (Call T)) :
    (∃ h1 q1,
      runCalls (h, ⟨none, last⟩) calls
        = some ((h1, q1), (specRunCalls [] calls).2.1, (specRunCalls [] calls).2.2) ∧
      Holds h1 q1 (specRunCalls [] calls).1 ∧
      (specRunCalls [] calls).2.1 ≤ Call.pushes calls ∧
      (specRunCalls [] calls).1.length = Call.pushes calls - (specRunCalls [] calls).2.1 ∧
      (Call.pushes calls - (specRunCalls [] calls).2.1 ≤ INT_MAX →
        q1.size h1 = some (Call.pushes calls - (specRunCalls [] calls).2.1)) ∧
      (∀ n, q1.size h1 = some n → n = Call.pushes calls - (specRunCalls [] calls).2.1) ∧
      Call.pushes calls + (specRunCalls [] calls).2.1 + (specRunCalls [] calls).2.2
        = calls.length) ∧
    Queue.empty ⟨none, last⟩ = true ∧
    Queue.pop h ⟨none, last⟩ = .raised .out_of_range (h, ⟨none, last⟩) := by
  refine ⟨?_, rfl, rfl⟩
  obtain ⟨h1, q1, hr, hq⟩ := runCalls_refines calls h ⟨none, last⟩ [] (holds_empty_queue h last)
  obtain ⟨hlen, hcnt⟩ := specRunCalls_counts calls ([] : List T)
  simp only [List.length_nil, Nat.zero_add] at hlen
  have hl : (specRunCalls [] calls).1.length
      = Call.pushes calls - (specRunCalls [] calls).2.1 := by omega
  refine ⟨h1, q1, hr, hq, by omega, hl, ?_, ?_, hcnt⟩
  · intro hmax
    rw [← hl] at hmax ⊢
    exact holds_size hq hmax
  · intro n hn
    rw [← hl]
    exact (holds_size_some hq hn).1

/-- Witness of C3: `push(6)` then `pop()` on a default-constructed queue: the pop succeeds,
no call is rejected, and `size()` returns 0. -/
theorem c3_size_counts_witness :
    (∃ h1 q1,
      runCalls (([] : Heap Nat), ⟨none, none⟩) [.push 6, .pop] = some ((h1, q1), 1, 0) ∧
      Holds h1 q1 [] ∧ 1 ≤ 1 ∧ ([] : List Nat).length = 1 - 1 ∧
      (1 - 1 ≤ INT_MAX → q1.size h1 = some (1 - 1)) ∧
      (∀ n, q1.size h1 = some n → n = 1 - 1) ∧
      1 + 1 + 0 = [Call.push 6, Call.pop].length) ∧
    Queue.empty ⟨none, none⟩ = true ∧
    Queue.pop ([] : Heap Nat) ⟨none, none⟩ = .raised .out_of_range ([], ⟨none, none⟩) :=
  c3_size_counts ([] : Heap Nat) none [.push 6, .pop]

/-- The sections of the test case "An empty queue": one push gives size 1; `push(6)` then
`pop()` gives size 0 and `empty()`. -/
theorem empty_queue_test :
    (runCalls (([] : Heap Nat), Queue.default) [.push 4]).bind
        (fun r => r.1.2.size r.1.1) = some 1 ∧
      (runCalls (([] : Heap Nat), Queue.default) [.push 6, .pop]).bind
        (fun r => r.1.2.size r.1.1) = some 0 ∧
      (runCalls (([] : Heap Nat), Queue.default) [.push 6, .pop]).map
        (fun r => r.1.2.empty) = some true := by
  decide

/-- C5: on a valid queue, either the queue is empty and each of `front()`, `back()` and
`pop()` throws `out_of_range` leaving heap and queue unchanged, or the queue is not empty and
none of the three throws: `front()` and `back()` return an element and `pop()` returns. -/
theorem c5_empty_access (h : Heap T) (q : Queue) (xs : List T) (hq : Holds h q xs) :
    (xs = [] ∧ q.empty = true ∧
      q.front h = .raised .out_of_range (h, q) ∧
      q.back h = .raised .out_of_range (h, q) ∧
      q.pop h = .raised .out_of_range (h, q)) ∨
    (xs ≠ [] ∧ q.empty = false ∧
      (∃ x, q.front h = .ok x (h, q)) ∧
      (∃ y, q.back h = .ok y (h, q)) ∧
      ∃ st, q.pop h = .ok () st) := by
  cases xs with
  | nil =>
    left
    have he : q.empty = true := (holds_empty hq).mpr rfl
    simp [Queue.front, Queue.back, Queue.pop, he]
  | cons x rest =>
    right
    have he : q.empty = false := by
      cases hc : q.empty
      · rfl
      · have := (holds_empty hq).mp hc
        simp at this
    obtain ⟨h1, q1, hf, hp, _⟩ := holds_pop hq
    obtain ⟨pre, y, hpy⟩ : ∃ pre y, x :: rest = pre ++ [y] := by
      rcases List.eq_nil_or_concat' (x :: rest) with h0 | ⟨pre, y, hy⟩
      · simp at h0
      · exact ⟨pre, y, hy⟩
    rw [hpy] at hq
    exact ⟨by simp, he, ⟨x, hf⟩, ⟨y, holds_back hq⟩, ⟨(h1, q1), hp⟩⟩

/-- Witness of C5: the freshly default-constructed queue (first case) on an empty heap. -/
theorem c5_empty_access_witness :
    Holds ([] : Heap Nat) Queue.default [] ∧
    ((([] : List Nat) = [] ∧ Queue.default.empty = true ∧
      Queue.default.front ([] : Heap Nat) = .raised .out_of_range ([], Queue.default) ∧
      Queue.default.back ([] : Heap Nat) = .raised .out_of_range ([], Queue.default) ∧
      Queue.default.pop ([] : Heap Nat) = .raised .out_of_range ([], Queue.default)) ∨
    (([] : List Nat) ≠ [] ∧ Queue.default.empty = false ∧
      (∃ x, Queue.default.front ([] : Heap Nat) = .ok x ([], Queue.default)) ∧
      (∃ y, Queue.default.back ([] : Heap Nat) = .ok y ([], Queue.default)) ∧
      ∃ st, Queue.default.pop ([] : Heap Nat) = .ok () st)) :=
  ⟨holds_default [], c5_empty_access [] Queue.default [] (holds_default [])⟩

/-! ## Destruction -/

theorem freeAll_cons (h : Heap T) (a : Nat) (as : List Nat) :
    freeAll h (a :: as) = freeAll (h.free a) as := rfl

theorem length_freeAll (as : List Nat) : ∀ h : Heap T, (freeAll h as).length = h.length := by
  induction as with
  | nil => intro h; rfl
  | cons a as ih => intro h; rw [freeAll_cons, ih, Heap.length_free]

theorem read_freeAll_of_not_mem (as : List Nat) :
    ∀ (h : Heap T) (a : Nat), a ∉ as → (freeAll h as).read a = h.read a := by
  induction as with
  | nil => intro h a _; rfl
  | cons b as ih =>
    intro h a ha
    rw [freeAll_cons, ih _ _ (fun hm => ha (List.mem_cons_of_mem _ hm)),
      Heap.read_free_ne h (fun e : a = b => ha (by rw [e]; exact List.mem_cons_self _ _))]

theorem read_freeAll_of_mem (as : List Nat) :
    ∀ (h : Heap T) (a : Nat), a ∈ as → (freeAll h as).read a = none := by
  induction as with
  | nil => intro h a ha; simp at ha
  | cons b as ih =>
    intro h a ha
    rw [freeAll_cons]
    by_cases hm : a ∈ as
    · exact ih _ _ hm
    · rcases List.mem_cons.mp ha with rfl | hm'
      · rw [read_freeAll_of_not_mem as _ _ hm, Heap.read_free_eq]
      · exact absurd hm' hm

theorem popLoop_spec (as : List Nat) :
    ∀ (fuel : Nat) (h : Heap T) (q : Queue), Owns h q as → as.length ≤ fuel →
      popLoop fuel h q = some (freeAll h as, ⟨none, q.last⟩) := by
  induction as with
  | nil =>
    intro fuel h q ho _
    have hf : q.first = none := seg_nil.mp ho.1
    cases q with
    | mk first last =>
      simp only at hf
      subst hf
      cases fuel <;> simp [popLoop, freeAll]
  | cons a as ih =>
    intro fuel h q ho hfuel
    obtain ⟨n, hn, _, ho1, _⟩ := pop_spec ho
    have hp := (seg_cons.mp ho.1).1
    cases fuel with
    | zero => simp at hfuel
    | succ fuel =>
      have := ih fuel (h.free a) ⟨n.next, q.last⟩ ho1 (by simpa using hfuel)
      simp only [popLoop, hp, Queue.do_unchecked_pop, hn]
      simpa [freeAll_cons] using this

theorem destroy_spec {h : Heap T} {q : Queue} {as : List Nat} (ho : Owns h q as) :
    q.destroy h = some (freeAll h as) := by
  simp [Queue.destroy, popLoop_spec as h.length h q ho (owns_length_le ho)]

/-! ## Copy construction -/

theorem copyLoop_spec (throwsOn : T → Bool) (rest : List Nat) :
    ∀ (fuel : Nat) (h : Heap T) (this : Queue) (ts : List Nat) (loop : Option Nat),
      Seg h loop rest none → Owns h this ts → List.Disjoint ts rest → rest.length ≤ fuel →
      ∃ h1 this1 news, Owns h1 this1 (ts ++ news) ∧ (∀ a ∈ news, h.length ≤ a) ∧
        h.length ≤ h1.length ∧
        (∀ a, a ∉ ts → a < h.length → h1.read a = h.read a) ∧
        ((copyLoop throwsOn fuel h this loop = .ok () (h1, this1) ∧
            elems h1 (ts ++ news) = elems h ts ++ elems h rest ∧
            ∀ x ∈ elems h rest, throwsOn x = false) ∨
          (copyLoop throwsOn fuel h this loop = .raised .element_copy (h1, this1) ∧
            ∃ x ∈ elems h rest, throwsOn x = true)) := by
  induction rest with
  | nil =>
    intro fuel h this ts loop hs ho _ _
    rw [seg_nil.mp hs]
    refine ⟨h, this, [], by simpa using ho, by simp, le_refl _, fun _ _ _ => rfl, Or.inl ?_⟩
    refine ⟨by cases fuel <;> rfl, by simp [elems], by simp [elems]⟩
  | cons a rest ih =>
    intro fuel h this ts loop hs ho hdis hfuel
    obtain ⟨hp, n, hn, hrest⟩ := seg_cons.mp hs
    subst hp
    have halt : a < h.length := Heap.read_lt hn
    have hats : a ∉ ts := fun hm => hdis hm (List.mem_cons_self _ _)
    cases fuel with
    | zero => simp at hfuel
    | succ fuel =>
      cases hthrow : throwsOn n.data with
      | true =>
        refine ⟨h, this, [], by simpa using ho, by simp, le_refl _, fun _ _ _ => rfl,
          Or.inr ⟨?_, n.data, ?_, hthrow⟩⟩
        · simp [copyLoop, hn, Queue.pushCopy, hthrow]
        · rw [elems_cons hn]; exact List.mem_cons_self _ _
      | false =>
        obtain ⟨hp, qp, hpush, hop, hep, hlen, hfr⟩ := push_spec ho n.data
        have hrd : hp.read a = some n := by
          rw [hfr a hats (Nat.ne_of_lt halt)]; exact hn
        have hrest_lt : ∀ b ∈ rest, b < h.length := seg_lt hrest
        have hrest_ts : ∀ b ∈ rest, b ∉ ts := fun b hb hm =>
          hdis hm (List.mem_cons_of_mem _ hb)
        have hfr_rest : ∀ b ∈ rest, hp.read b = h.read b := fun b hb =>
          hfr b (hrest_ts b hb) (Nat.ne_of_lt (hrest_lt b hb))
        have hdis1 : List.Disjoint (ts ++ [h.length]) rest := by
          intro b hb hb'
          rcases List.mem_append.mp hb with h1 | h1
          · exact hrest_ts b hb' h1
          · rw [List.mem_singleton.mp h1] at hb'
            exact Nat.lt_irrefl _ (hrest_lt _ hb')
        obtain ⟨h2, q2, news, ho2, hnews, hlen2, hfr2, hcase⟩ :=
          ih fuel hp qp (ts ++ [h.length]) n.next (seg_frame hfr_rest hrest) hop hdis1
            (by simpa using hfuel)
        have hstep : copyLoop throwsOn (fuel + 1) h this (some a)
            = copyLoop throwsOn fuel hp qp n.next := by
          simp [copyLoop, hn, Queue.pushCopy, hthrow, hpush, hrd]
        refine ⟨h2, q2, h.length :: news, by simpa using ho2, ?_, by omega, ?_, ?_⟩
        · intro b hb
          rcases List.mem_cons.mp hb with rfl | hb'
          · exact le_refl _
          · have := hnews b hb'
            omega
        · intro b hb hblt
          rw [hfr2 b (by simp [hb, Nat.ne_of_lt hblt]) (by omega),
            hfr b hb (Nat.ne_of_lt hblt)]
        · rcases hcase with ⟨hok, hel, hno⟩ | ⟨hraise, x, hx, hxt⟩
          · left
            refine ⟨hstep.trans hok, ?_, ?_⟩
            · have : ts ++ h.length :: news = ts ++ [h.length] ++ news := by simp
              rw [this, hel, hep, elems_cons hn, elems_frame hfr_rest]
              simp
            · intro x hx
              rw [elems_cons hn] at hx
              rcases List.mem_cons.mp hx with rfl | hx'
              · exact hthrow
              · exact hno x (by rw [elems_frame hfr_rest]; exact hx')
          · right
            refine ⟨hstep.trans hraise, x, ?_, hxt⟩
            rw [elems_cons hn]
            rw [elems_frame hfr_rest] at hx
            exact List.mem_cons_of_mem _ hx

theorem owns_default (h : Heap T) : Owns h Queue.default [] :=
  ⟨rfl, List.nodup_nil, Or.inl rfl⟩

theorem copyConstruct_spec (throwsOn : T → Bool) {h : Heap T} {source : Queue}
    {ss : List Nat} (ho : Owns h source ss) :
    ∃ h1 this1 news, (∀ a ∈ news, h.length ≤ a) ∧ h.length ≤ h1.length ∧
      (∀ a, a < h.length → h1.read a = h.read a) ∧
      ((Queue.copyConstruct throwsOn h source = .ok () (h1, this1) ∧ Owns h1 this1 news ∧
          elems h1 news = elems h ss ∧ ∀ x ∈ elems h ss, throwsOn x = false) ∨
        (Queue.copyConstruct throwsOn h source = .raised .element_copy (h1, this1) ∧
          this1.first = none ∧ (∀ a ∈ news, h1.read a = none) ∧
          ∃ x ∈ elems h ss, throwsOn x = true)) := by
  obtain ⟨h1, q1, news, ho1, hnews, hlen, hfr, hcase⟩ :=
    copyLoop_spec throwsOn ss h.length h Queue.default [] source.first ho.1 (owns_default h)
      (by simp) (owns_length_le ho)
  rw [List.nil_append] at ho1
  rcases hcase with ⟨hok, hel, hno⟩ | ⟨hraise, hx⟩
  · refine ⟨h1, q1, news, hnews, hlen, fun a ha => hfr a (by simp) ha, Or.inl ⟨?_, ho1, ?_, hno⟩⟩
    · simp [Queue.copyConstruct, hok]
    · simpa [elems] using hel
  · refine ⟨freeAll h1 news, ⟨none, q1.last⟩, news, hnews, ?_, ?_, Or.inr ⟨?_, rfl, ?_, hx⟩⟩
    · rw [length_freeAll]; exact hlen
    · intro a ha
      rw [read_freeAll_of_not_mem news h1 a (fun hm => by have := hnews a hm; omega)]
      exact hfr a (by simp) ha
    · simp [Queue.copyConstruct, hraise, popLoop_spec news h1.length h1 q1 ho1
        (owns_length_le ho1)]
    · exact fun a ha => read_freeAll_of_mem news h1 a ha

theorem copyAssign_spec (throwsOn : T → Bool) {h : Heap T} {this rhs : Queue}
    {ts ss : List Nat} (hot : Owns h this ts) (hos : Owns h rhs ss) :
    ∃ h2 q2, h.length ≤ h2.length ∧
      (∀ a, a ∉ ts → a < h.length → h2.read a = h.read a) ∧
      ((Queue.copyAssign throwsOn h this rhs = .ok () (h2, q2) ∧
          (∃ news, Owns h2 q2 news ∧ (∀ a ∈ news, h.length ≤ a) ∧
            elems h2 news = elems h ss) ∧
          (∀ a ∈ ts, h2.read a = none) ∧ ∀ x ∈ elems h ss, throwsOn x = false) ∨
        (Queue.copyAssign throwsOn h this rhs = .raised .element_copy (h2, this) ∧
          q2 = this ∧ (∀ a, a < h.length → h2.read a = h.read a) ∧
          ∃ x ∈ elems h ss, throwsOn x = true)) := by
  obtain ⟨h1, q1, news, hnews, hlen, hfr, hcase⟩ := copyConstruct_spec throwsOn hos
  rcases hcase with ⟨hok, ho1, hel, hno⟩ | ⟨hraise, _, _, hx⟩
  · have hot1 : Owns h1 this ts :=
      owns_frame (fun a ha => hfr a (seg_lt hot.1 a ha)) hot
    have hnts : ∀ a ∈ news, a ∉ ts := fun a ha hm => by
      have h1' := hnews a ha
      have h2' := seg_lt hot.1 a hm
      omega
    have hfr2 : ∀ a ∈ news, (freeAll h1 ts).read a = h1.read a := fun a ha =>
      read_freeAll_of_not_mem ts h1 a (hnts a ha)
    refine ⟨freeAll h1 ts, q1, ?_, ?_, Or.inl ⟨?_, ⟨news, owns_frame hfr2 ho1, hnews, ?_⟩,
      fun a ha => read_freeAll_of_mem ts h1 a ha, hno⟩⟩
    · rw [length_freeAll]; exact hlen
    · intro a ha halt
      rw [read_freeAll_of_not_mem ts h1 a ha, hfr a halt]
    · have hd : Queue.destroy h1 (this.swap q1).2 = some (freeAll h1 ts) := destroy_spec hot1
      simp only [Queue.copyAssign, hok, hd]
      rfl
    · rw [elems_frame hfr2, hel]
  · refine ⟨h1, this, hlen, fun a _ ha => hfr a ha, Or.inr ⟨?_, rfl, hfr, hx⟩⟩
    simp [Queue.copyAssign, hraise]

/-- C7: copy construction from a valid queue holding `xs`, no element copy throwing, returns
normally with a valid queue that holds `xs` (same traversal; same `size()`, which returns the
length of `xs` when that is at most `INT_MAX`); no cell of the
heap that existed before is changed, and the source still holds `xs`. -/
theorem c7_copy_construct (throwsOn : T → Bool) (h : Heap T) (src : Queue) (xs : List T)
    (hq : Holds h src xs) (hcopy : ∀ x ∈ xs, throwsOn x = false) :
    ∃ h1 q1, Queue.copyConstruct throwsOn h src = .ok () (h1, q1) ∧
      Holds h1 q1 xs ∧ q1.toList h1 = some xs ∧
      (xs.length ≤ INT_MAX → q1.size h1 = some xs.length) ∧
      (∀ a, a < h.length → h1.read a = h.read a) ∧
      Holds h1 src xs ∧ src.toList h1 = some xs ∧
      (xs.length ≤ INT_MAX → src.size h1 = some xs.length) := by
  obtain ⟨ss, ho, rfl⟩ := hq
  obtain ⟨h1, q1, news, _, _, hfr, hcase⟩ := copyConstruct_spec throwsOn ho
  rcases hcase with ⟨hok, ho1, hel, _⟩ | ⟨_, _, _, x, hx, hxt⟩
  · have hfs : ∀ a ∈ ss, h1.read a = h.read a := fun a ha => hfr a (seg_lt ho.1 a ha)
    have hq1 : Holds h1 q1 (elems h ss) := ⟨news, ho1, hel⟩
    have hs1 : Holds h1 src (elems h ss) := ⟨ss, owns_frame hfs ho, elems_frame hfs⟩
    exact ⟨h1, q1, hok, hq1, holds_toList hq1, holds_size hq1, hfr, hs1, holds_toList hs1,
      holds_size hs1⟩
  · rw [hcopy x hx] at hxt
    exact absurd hxt (by simp)

/-- Witness of C7: copying the queue of the test case, `2, 4, 6, 8, 10`. -/
theorem c7_copy_construct_witness :
    ∃ h1 q1, Queue.copyConstruct (fun _ => false)
        testHeap testQueue = .ok () (h1, q1) ∧
      Holds h1 q1 [2, 4, 6, 8, 10] ∧ q1.toList h1 = some [2, 4, 6, 8, 10] ∧
      ([2, 4, 6, 8, 10].length ≤ INT_MAX → q1.size h1 = some [2, 4, 6, 8, 10].length) ∧
      (∀ a, a < testHeap.length →
        h1.read a = Heap.read testHeap a) ∧
      Holds h1 testQueue [2, 4, 6, 8, 10] ∧
      Queue.toList h1 testQueue = some [2, 4, 6, 8, 10] ∧
      ([2, 4, 6, 8, 10].length ≤ INT_MAX →
        Queue.size h1 testQueue = some [2, 4, 6, 8, 10].length) :=
  c7_copy_construct (fun _ => false) _ testQueue [2, 4, 6, 8, 10]
    ⟨[0, 1, 2, 3, 4], by decide, by decide⟩ (fun _ _ => rfl)

/-- C9: move construction from a valid queue `a` holding `xs` gives a valid queue that holds
`xs` in the same order (its `size()` returns the length of `xs` when that is at most
`INT_MAX`), and leaves `a` with `empty()` true and `size()` zero; the heap is not touched. -/
theorem c9_move_construct (h : Heap T) (a : Queue) (xs : List T) (hq : Holds h a xs) :
    (Queue.moveConstruct a).2.empty = true ∧
      (Queue.moveConstruct a).2.size h = some 0 ∧
      Holds h (Queue.moveConstruct a).2 [] ∧
      Holds h (Queue.moveConstruct a).1 xs ∧
      (Queue.moveConstruct a).1.toList h = some xs ∧
      (xs.length ≤ INT_MAX → (Queue.moveConstruct a).1.size h = some xs.length) := by
  have h1 : (Queue.moveConstruct a).1 = a := rfl
  have h2 : (Queue.moveConstruct a).2 = Queue.default := rfl
  rw [h1, h2]
  exact ⟨rfl, holds_size (holds_default h) (Nat.zero_le _), holds_default h, hq,
    holds_toList hq, holds_size hq⟩

/-- Witness of C9: moving the queue of the test case, `2, 4, 6, 8, 10`. -/
theorem c9_move_construct_witness :
    Holds testHeap testQueue [2, 4, 6, 8, 10] ∧
      (Queue.moveConstruct testQueue).2.empty = true ∧
      (Queue.moveConstruct testQueue).2.size
        testHeap = some 0 ∧
      Holds testHeap (Queue.moveConstruct testQueue).2 [] ∧
      Holds testHeap (Queue.moveConstruct testQueue).1
        [2, 4, 6, 8, 10] ∧
      (Queue.moveConstruct testQueue).1.toList
        testHeap = some [2, 4, 6, 8, 10] ∧
      ([2, 4, 6, 8, 10].length ≤ INT_MAX →
        (Queue.moveConstruct testQueue).1.size testHeap = some [2, 4, 6, 8, 10].length) :=
  ⟨⟨[0, 1, 2, 3, 4], by decide, by decide⟩,
    c9_move_construct _ testQueue [2, 4, 6, 8, 10]
      ⟨[0, 1, 2, 3, 4], by decide, by decide⟩⟩

/-! ## The invariant of a world -/

theorem inv_store {w : World T} {owned : Nat → List Nat}
    (hown : ∀ i q, w.objs[i]? = some q → Owns w.heap q (owned i))
    (hdis : ∀ i j, i < w.objs.length → j < w.objs.length → i ≠ j →
      List.Disjoint (owned i) (owned j))
    {i : Nat} {q q1 : Queue} {h1 : Heap T} {as1 : List Nat} (hi : w.objs[i]? = some q)
    (hfr : ∀ a, a ∉ owned i → a < w.heap.length → h1.read a = w.heap.read a)
    (ho : Owns h1 q1 as1) (hsub : ∀ a ∈ as1, a ∈ owned i ∨ w.heap.length ≤ a) :
    (∀ k p, (w.objs.set i q1)[k]? = some p → Owns h1 p (Function.update owned i as1 k)) ∧
    ∀ k l, k < (w.objs.set i q1).length → l < (w.objs.set i q1).length → k ≠ l →
      List.Disjoint (Function.update owned i as1 k) (Function.update owned i as1 l) := by
  have hilt : i < w.objs.length := by
    by_contra hc
    rw [List.getElem?_eq_none (Nat.le_of_not_lt hc)] at hi
    simp at hi
  have hother : ∀ k, k < w.objs.length → k ≠ i → List.Disjoint as1 (owned k) := by
    intro k hk hki a ha hak
    obtain ⟨p, hp⟩ : ∃ p, w.objs[k]? = some p := ⟨w.objs[k], List.getElem?_eq_getElem hk⟩
    have hlt := seg_lt (hown k p hp).1 a hak
    rcases hsub a ha with h0 | h0
    · exact hdis i k hilt hk (Ne.symm hki) h0 hak
    · omega
  constructor
  · intro k p hk
    by_cases hki : k = i
    · subst hki
      rw [List.getElem?_set_self hilt] at hk
      rw [Function.update_same]
      cases hk
      exact ho
    · rw [List.getElem?_set_ne (Ne.symm hki)] at hk
      rw [Function.update_noteq hki]
      have hklt : k < w.objs.length := by
        by_contra hc
        rw [List.getElem?_eq_none (Nat.le_of_not_lt hc)] at hk
        simp at hk
      have hok := hown k p hk
      refine owns_frame (fun a ha => hfr a ?_ (seg_lt hok.1 a ha)) hok
      exact fun hm => hdis i k hilt hklt (Ne.symm hki) hm ha
  · intro k l hk hl hkl
    rw [List.length_set] at hk hl
    by_cases hki : k = i
    · subst hki
      rw [Function.update_same, Function.update_noteq (Ne.symm hkl)]
      exact hother l hl (Ne.symm hkl)
    · by_cases hli : l = i
      · subst hli
        rw [Function.update_same, Function.update_noteq hki]
        exact (hother k hk hki).symm
      · rw [Function.update_noteq hki, Function.update_noteq hli]
        exact hdis k l hk hl hkl

theorem worldInv_store {w : World T} (hinv : WorldInv w) {i : Nat} {q q1 : Queue}
    {h1 : Heap T} (hi : w.objs[i]? = some q)
    (hstep : ∀ as, Owns w.heap q as → ∃ as1, Owns h1 q1 as1 ∧
      (∀ a, a ∉ as → a < w.heap.length → h1.read a = w.heap.read a) ∧
      ∀ a ∈ as1, a ∈ as ∨ w.heap.length ≤ a) :
    WorldInv ⟨h1, w.objs.set i q1⟩ := by
  obtain ⟨owned, hown, hdis⟩ := hinv
  obtain ⟨as1, ho, hfr, hsub⟩ := hstep (owned i) (hown i q hi)
  exact ⟨Function.update owned i as1, inv_store hown hdis hi hfr ho hsub⟩

theorem worldInv_append {w : World T} (hinv : WorldInv w) {q1 : Queue} {h1 : Heap T}
    {as1 : List Nat} (hfr : ∀ a, a < w.heap.length → h1.read a = w.heap.read a)
    (ho : Owns h1 q1 as1) (hnew : ∀ a ∈ as1, w.heap.length ≤ a) :
    WorldInv ⟨h1, w.objs ++ [q1]⟩ := by
  obtain ⟨owned, hown, hdis⟩ := hinv
  have hold : ∀ k, k < w.objs.length → ∀ a ∈ owned k, a < w.heap.length := by
    intro k hk a ha
    exact seg_lt (hown k _ (List.getElem?_eq_getElem hk)).1 a ha
  have hother : ∀ k, k < w.objs.length → List.Disjoint as1 (owned k) := by
    intro k hk a ha hak
    have h1' := hnew a ha
    have h2' := hold k hk a hak
    omega
  refine ⟨Function.update owned w.objs.length as1, ?_, ?_⟩
  · intro k p hk
    simp only at hk ⊢
    by_cases hkl : k < w.objs.length
    · rw [List.getElem?_append_left hkl] at hk
      rw [Function.update_noteq (Nat.ne_of_lt hkl)]
      have hok := hown k p hk
      exact owns_frame (fun a ha => hfr a (seg_lt hok.1 a ha)) hok
    · have hk' : k = w.objs.length := by
        by_contra hne
        rw [List.getElem?_eq_none (by simp; omega)] at hk
        simp at hk
      subst hk'
      rw [Function.update_same]
      simp at hk
      rw [← hk]
      exact ho
  · intro k l hk hl hkl
    simp only [List.length_append, List.length_singleton] at hk hl
    by_cases hk' : k = w.objs.length
    · have hl' : l < w.objs.length := by omega
      rw [hk', Function.update_same, Function.update_noteq (Nat.ne_of_lt hl')]
      exact hother l hl'
    · have hk'' : k < w.objs.length := by omega
      by_cases hl' : l = w.objs.length
      · rw [hl', Function.update_same, Function.update_noteq hk']
        exact (hother k hk'').symm
      · rw [Function.update_noteq hk', Function.update_noteq hl']
        exact hdis k l hk'' (by omega) hkl

theorem worldInv_frame {w : World T} (hinv : WorldInv w) {h1 : Heap T}
    (hfr : ∀ a, a < w.heap.length → h1.read a = w.heap.read a) :
    WorldInv ⟨h1, w.objs⟩ := by
  obtain ⟨owned, hown, hdis⟩ := hinv
  refine ⟨owned, ?_, hdis⟩
  intro k p hk
  have hok := hown k p hk
  exact owns_frame (fun a ha => hfr a (seg_lt hok.1 a ha)) hok

theorem getElem?_lt {α : Type} {l : List α} {i : Nat} {x : α} (h : l[i]? = some x) :
    i < l.length := by
  by_contra hc
  rw [List.getElem?_eq_none (Nat.le_of_not_lt hc)] at h
  simp at h

theorem getElem?_exchange {α : Type} {l : List α} {i j : Nat} {a b : α}
    (hi : l[i]? = some a) (hj : l[j]? = some b) (k : Nat) :
    ((l.set i b).set j a)[k]? = l[Equiv.swap i j k]? := by
  have hilt := getElem?_lt hi
  have hjlt := getElem?_lt hj
  by_cases hkj : k = j
  · subst hkj
    rw [List.getElem?_set_self (by simpa using hjlt), Equiv.swap_apply_right, hi]
  · rw [List.getElem?_set_ne (Ne.symm hkj)]
    by_cases hki : k = i
    · subst hki
      rw [List.getElem?_set_self hilt, Equiv.swap_apply_left, hj]
    · rw [List.getElem?_set_ne (Ne.symm hki), Equiv.swap_apply_of_ne_of_ne hki hkj]

theorem worldInv_exchange {w : World T} (hinv : WorldInv w) {i j : Nat} {a b : Queue}
    (hi : w.objs[i]? = some a) (hj : w.objs[j]? = some b) :
    WorldInv ⟨w.heap, (w.objs.set i b).set j a⟩ := by
  obtain ⟨owned, hown, hdis⟩ := hinv
  have hilt := getElem?_lt hi
  have hjlt := getElem?_lt hj
  have hlt : ∀ k, k < w.objs.length → Equiv.swap i j k < w.objs.length := by
    intro k hk
    rw [Equiv.swap_apply_def]
    split
    · exact hjlt
    · split
      · exact hilt
      · exact hk
  refine ⟨fun k => owned (Equiv.swap i j k), ?_, ?_⟩
  · intro k p hk
    rw [getElem?_exchange hi hj k] at hk
    exact hown _ p hk
  · intro k l hk hl hkl
    simp only [List.length_set] at hk hl
    exact hdis _ _ (hlt k hk) (hlt l hl) (fun e => hkl ((Equiv.swap i j).injective e))

theorem worldInv_moveConstruct {w : World T} (hinv : WorldInv w) {i : Nat} {q : Queue}
    (hi : w.objs[i]? = some q) :
    WorldInv ⟨w.heap, w.objs.set i Queue.default ++ [q]⟩ := by
  obtain ⟨owned, hown, hdis⟩ := hinv
  have hilt := getElem?_lt hi
  have hupd : ∀ k, k < w.objs.length →
      Function.update (Function.update owned i []) w.objs.length (owned i) k
        = if k = i then [] else owned k := by
    intro k hk
    rw [Function.update_noteq (Nat.ne_of_lt hk)]
    by_cases hki : k = i
    · rw [hki, Function.update_same, if_pos rfl]
    · rw [Function.update_noteq hki, if_neg hki]
  have hdisj : ∀ k, k < w.objs.length →
      List.Disjoint (owned i) (if k = i then [] else owned k) := by
    intro k hk
    by_cases hki : k = i
    · rw [if_pos hki]; exact List.disjoint_nil_right _
    · rw [if_neg hki]; exact hdis i k hilt hk (Ne.symm hki)
  refine ⟨Function.update (Function.update owned i []) w.objs.length (owned i), ?_, ?_⟩
  · intro k p hk
    simp only at hk ⊢
    by_cases hkl : k < w.objs.length
    · rw [List.getElem?_append_left (by simpa using hkl)] at hk
      rw [hupd k hkl]
      by_cases hki : k = i
      · rw [if_pos hki]
        rw [hki, List.getElem?_set_self hilt] at hk
        cases hk
        exact owns_default _
      · rw [if_neg hki]
        rw [List.getElem?_set_ne (Ne.symm hki)] at hk
        exact hown k p hk
    · have hk' : k = w.objs.length := by
        by_contra hne
        rw [List.getElem?_eq_none (by simp; omega)] at hk
        simp at hk
      subst hk'
      rw [Function.update_same]
      have : (w.objs.set i Queue.default ++ [q])[w.objs.length]? = some q := by
        rw [List.getElem?_append_right (by simp)]
        simp
      rw [this] at hk
      cases hk
      exact hown i _ hi
  · intro k l hk hl hkl
    simp only [List.length_append, List.length_set, List.length_singleton] at hk hl
    by_cases hk' : k = w.objs.length
    · have hl' : l < w.objs.length := by omega
      rw [hk', Function.update_same, hupd l hl']
      exact hdisj l hl'
    · have hk'' : k < w.objs.length := by omega
      by_cases hl' : l = w.objs.length
      · rw [hl', Function.update_same, hupd k hk'']
        exact (hdisj k hk'').symm
      · have hl'' : l < w.objs.length := by omega
        rw [hupd k hk'', hupd l hl'']
        by_cases hki : k = i
        · rw [if_pos hki]; exact List.disjoint_nil_left _
        · rw [if_neg hki]
          by_cases hli : l = i
          · rw [if_pos hli]; exact List.disjoint_nil_right _
          · rw [if_neg hli]; exact hdis k l hk'' hl'' hkl

theorem worldInv_next (throwsOn : T → Bool) {w w1 : World T} (hinv : WorldInv w)
    (op : Op T) (hn : w.next throwsOn op = some w1) : WorldInv w1 := by
  unfold World.next at hn
  cases op with
  | construct =>
    simp only [World.step, Option.some.injEq] at hn
    subst hn
    exact worldInv_append hinv (fun _ _ => rfl) (owns_default _) (by simp)
  | push i x =>
    simp only [World.step] at hn
    cases hi : w.objs[i]? with
    | none => simp [hi] at hn
    | some q =>
      obtain ⟨owned, hown, _⟩ := id hinv
      obtain ⟨h1, q1, hp, _, _, _, _⟩ := push_spec (hown i q hi) x
      simp only [hi, hp, World.store, Option.some.injEq] at hn
      subst hn
      refine worldInv_store hinv hi (fun as ho => ?_)
      obtain ⟨h2, q2, hp2, ho2, _, _, hfr⟩ := push_spec ho x
      rw [hp] at hp2
      cases hp2
      refine ⟨_, ho2, fun a ha hlt => hfr a ha (Nat.ne_of_lt hlt), ?_⟩
      intro a ha
      rcases List.mem_append.mp ha with h0 | h0
      · exact Or.inl h0
      · exact Or.inr (by rw [List.mem_singleton.mp h0])
  | pushCopy i x =>
    simp only [World.step] at hn
    cases hi : w.objs[i]? with
    | none => simp [hi] at hn
    | some q =>
      obtain ⟨owned, hown, _⟩ := id hinv
      cases ht : throwsOn x with
      | true =>
        simp only [hi, Queue.pushCopy, ht, if_true, World.store, Option.some.injEq] at hn
        subst hn
        exact worldInv_store hinv hi (fun as ho => ⟨as, ho, fun _ _ _ => rfl,
          fun a ha => Or.inl ha⟩)
      | false =>
        obtain ⟨h1, q1, hp, _, _, _, _⟩ := push_spec (hown i q hi) x
        simp only [hi, Queue.pushCopy, ht, hp, World.store, Option.some.injEq] at hn
        simp only [Bool.false_eq_true, if_false, Option.some.injEq] at hn
        subst hn
        refine worldInv_store hinv hi (fun as ho => ?_)
        obtain ⟨h2, q2, hp2, ho2, _, _, hfr⟩ := push_spec ho x
        rw [hp] at hp2
        cases hp2
        refine ⟨_, ho2, fun a ha hlt => hfr a ha (Nat.ne_of_lt hlt), ?_⟩
        intro a ha
        rcases List.mem_append.mp ha with h0 | h0
        · exact Or.inl h0
        · exact Or.inr (by rw [List.mem_singleton.mp h0])
  | pop i =>
    simp only [World.step] at hn
    cases hi : w.objs[i]? with
    | none => simp [hi] at hn
    | some q =>
      obtain ⟨owned, hown, _⟩ := id hinv
      have ho := hown i q hi
      cases hown_i : owned i with
      | nil =>
        rw [hown_i] at ho
        have he : q.empty = true := (owns_empty ho).mpr rfl
        simp only [hi, Queue.pop, he, if_true, World.store, Option.some.injEq] at hn
        subst hn
        exact worldInv_store hinv hi (fun as ho => ⟨as, ho, fun _ _ _ => rfl,
          fun a ha => Or.inl ha⟩)
      | cons a as =>
        rw [hown_i] at ho
        obtain ⟨n, hrd, hp, _, _⟩ := pop_spec ho
        simp only [hi, hp, World.store, Option.some.injEq] at hn
        subst hn
        refine worldInv_store hinv hi (fun bs hob => ?_)
        cases bs with
        | nil =>
          have := (seg_cons.mp ho.1).1
          rw [seg_nil.mp hob.1] at this
          simp at this
        | cons b bs =>
          have hab : a = b := by
            have h1 := (seg_cons.mp ho.1).1
            have h2 := (seg_cons.mp hob.1).1
            rw [h1] at h2
            exact Option.some.inj h2
          subst hab
          obtain ⟨n2, hrd2, _, ho2, _⟩ := pop_spec hob
          rw [hrd] at hrd2
          cases hrd2
          refine ⟨bs, ho2, fun c hc _ => ?_, fun c hc => Or.inl (List.mem_cons_of_mem _ hc)⟩
          exact Heap.read_free_ne _ (fun e => hc (by rw [e]; exact List.mem_cons_self _ _))
  | swap i j =>
    simp only [World.step] at hn
    cases hi : w.objs[i]? with
    | none => simp [hi] at hn
    | some a =>
      cases hj : w.objs[j]? with
      | none => simp [hi, hj] at hn
      | some b =>
        simp only [hi, hj, Option.some.injEq] at hn
        subst hn
        exact worldInv_exchange hinv hi hj
  | copyConstruct i =>
    simp only [World.step] at hn
    cases hi : w.objs[i]? with
    | none => simp [hi] at hn
    | some q =>
      obtain ⟨owned, hown, _⟩ := id hinv
      obtain ⟨h1, q1, news, hnews, _, hfr, hcase⟩ :=
        copyConstruct_spec throwsOn (hown i q hi)
      rcases hcase with ⟨hok, ho1, _, _⟩ | ⟨hraise, _, _, _⟩
      · simp only [hi, hok, Option.some.injEq] at hn
        subst hn
        exact worldInv_append hinv hfr ho1 hnews
      · simp only [hi, hraise, Option.some.injEq] at hn
        subst hn
        exact worldInv_frame hinv hfr
  | copyAssign i j =>
    simp only [World.step] at hn
    cases hi : w.objs[i]? with
    | none => simp [hi] at hn
    | some this =>
      cases hj : w.objs[j]? with
      | none => simp [hi, hj] at hn
      | some rhs =>
        obtain ⟨owned, hown, _⟩ := id hinv
        obtain ⟨h2, q2, _, hfr, hcase⟩ :=
          copyAssign_spec throwsOn (hown i this hi) (hown j rhs hj)
        rcases hcase with ⟨hok, ⟨news, ho2, hnews, _⟩, _, _⟩ | ⟨hraise, _, hfr2, _⟩
        · simp only [hi, hj, hok, World.store, Option.some.injEq] at hn
          subst hn
          refine worldInv_store hinv hi (fun as ho => ?_)
          obtain ⟨h3, q3, _, hfr3, hcase3⟩ := copyAssign_spec throwsOn ho (hown j rhs hj)
          rcases hcase3 with ⟨hok3, ⟨news3, ho3, hnews3, _⟩, _, _⟩ | ⟨hraise3, _⟩
          · rw [hok] at hok3
            cases hok3
            exact ⟨news3, ho3, hfr3, fun a ha => Or.inr (hnews3 a ha)⟩
          · rw [hok] at hraise3
            cases hraise3
        · simp only [hi, hj, hraise, World.store, Option.some.injEq] at hn
          subst hn
          refine worldInv_store hinv hi (fun as ho => ?_)
          exact ⟨as, owns_frame (fun a ha => hfr2 a (seg_lt ho.1 a ha)) ho,
            fun a _ hlt => hfr2 a hlt, fun a ha => Or.inl ha⟩
  | moveConstruct i =>
    simp only [World.step] at hn
    cases hi : w.objs[i]? with
    | none => simp [hi] at hn
    | some q =>
      simp only [hi, Option.some.injEq] at hn
      subst hn
      exact worldInv_moveConstruct hinv hi
  | moveAssign i j =>
    simp only [World.step] at hn
    cases hi : w.objs[i]? with
    | none => simp [hi] at hn
    | some a =>
      cases hj : w.objs[j]? with
      | none => simp [hi, hj] at hn
      | some b =>
        simp only [hi, hj, Option.some.injEq] at hn
        subst hn
        exact worldInv_exchange hinv hi hj

theorem worldInv_run (throwsOn : T → Bool) (ops : List (Op T)) :
    ∀ {w w1 : World T}, WorldInv w → World.run throwsOn w ops = some w1 → WorldInv w1 := by
  induction ops with
  | nil =>
    intro w w1 hinv hr
    simp only [World.run, Option.some.injEq] at hr
    rw [← hr]
    exact hinv
  | cons op ops ih =>
    intro w w1 hinv hr
    simp only [World.run] at hr
    cases hn : w.next throwsOn op with
    | none => simp [hn] at hr
    | some w2 =>
      rw [hn] at hr
      exact ih (worldInv_next throwsOn hinv op hn) hr

theorem worldInv_init (h : Heap T) : WorldInv ⟨h, []⟩ :=
  ⟨fun _ => [], fun i q hq => by simp at hq, fun i j hi => by simp at hi⟩

theorem reachable_inv {throwsOn : T → Bool} {w : World T} (hr : Reachable throwsOn w) :
    WorldInv w := by
  obtain ⟨h, ops, hrun⟩ := hr
  exact worldInv_run throwsOn ops (worldInv_init h) hrun

/-! ## Reachable worlds -/

theorem contents_of_owns {w : World T} {i : Nat} {q : Queue} {as : List Nat}
    (hi : w.objs[i]? = some q) (ho : Owns w.heap q as) :
    w.contents i = some (elems w.heap as) := by
  simp [World.contents, hi, owns_toList ho]

theorem owns_nonempty_last {h : Heap T} {q : Queue} {as : List Nat} (ho : Owns h q as)
    (hne : q.empty = false) :
    ∃ bs l n, as = bs ++ [l] ∧ q.last = some l ∧ h.read l = some n ∧ n.next = none := by
  rcases List.eq_nil_or_concat' as with rfl | ⟨bs, l, rfl⟩
  · have := (owns_empty ho).mpr rfl
    rw [hne] at this
    exact absurd this (by simp)
  · obtain ⟨_, n, hn, hnext⟩ := seg_last_next ho.1
    refine ⟨bs, l, n, rfl, ?_, hn, hnext⟩
    rcases ho.2.2 with h0 | h1
    · simp at h0
    · simpa using h1

theorem run_append_one {throwsOn : T → Bool} {ops : List (Op T)} {op : Op T} :
    ∀ {w w1 w2 : World T}, World.run throwsOn w ops = some w1 →
      w1.next throwsOn op = some w2 → World.run throwsOn w (ops ++ [op]) = some w2 := by
  induction ops with
  | nil =>
    intro w w1 w2 hr hn
    simp only [World.run, Option.some.injEq] at hr
    subst hr
    simp [World.run, hn]
  | cons o ops ih =>
    intro w w1 w2 hr hn
    simp only [World.run, List.cons_append] at hr ⊢
    cases ho : w.next throwsOn o with
    | none => simp [ho] at hr
    | some w3 =>
      rw [ho] at hr
      exact ih hr hn

theorem reachable_next {throwsOn : T → Bool} {w w1 : World T} (op : Op T)
    (hr : Reachable throwsOn w) (hn : w.next throwsOn op = some w1) :
    Reachable throwsOn w1 := by
  obtain ⟨h0, ops, hrun⟩ := hr
  exact ⟨h0, ops ++ [op], run_append_one hrun hn⟩

/-- C4: in every world a program of `push`, `pop`, `swap`, copy and move statements reaches,
for every queue object, `empty()` returns true exactly when `size()` returns 0 (on an empty
queue the loop of `size()` makes no step; on a non-empty one `size()` returns a positive
number or, on a chain of more than `INT_MAX` nodes, nothing defined).  Moreover `size()`
returns the number of elements of the object when that is at most `INT_MAX`, and whatever
`size()` returns is the number of elements. -/
theorem c4_empty_iff_size_zero (throwsOn : T → Bool) (w : World T)
    (hr : Reachable throwsOn w) (i : Nat) (q : Queue) (hi : w.objs[i]? = some q) :
    (q.empty = true ↔ q.size w.heap = some 0) ∧
    ∃ xs, w.contents i = some xs ∧ (q.empty = true ↔ xs = []) ∧
      (xs.length ≤ INT_MAX → q.size w.heap = some xs.length) ∧
      ∀ n, q.size w.heap = some n → n = xs.length := by
  obtain ⟨owned, hown, _⟩ := reachable_inv hr
  have ho := hown i q hi
  have hq : Holds w.heap q (elems w.heap (owned i)) := ⟨owned i, ho, rfl⟩
  refine ⟨?_, elems w.heap (owned i), contents_of_owns hi ho, holds_empty hq,
    holds_size hq, fun n hn => (holds_size_some hq hn).1⟩
  rw [owns_empty ho, owns_size_zero ho]

theorem emptiedWorld_reachable : Reachable (fun _ => false) emptiedWorld :=
  ⟨[], emptiedProgram, by decide⟩

theorem repushWorld_reachable : Reachable (fun _ => false) repushWorld :=
  ⟨[], repushProgram, by decide⟩

theorem pairWorld_reachable : Reachable (fun _ => false) pairWorld :=
  ⟨[], pairProgram, by decide⟩

/-- Witness of C4: the object `a` of `emptiedWorld`, empty with a stale `last`. -/
theorem c4_empty_iff_size_zero_witness :
    (Reachable (fun _ => false) emptiedWorld ∧ emptiedWorld.objs[0]? = some ⟨none, some 0⟩) ∧
    (Queue.empty ⟨none, some 0⟩ = true ↔
      Queue.size emptiedWorld.heap ⟨none, some 0⟩ = some 0) ∧
    ∃ xs, emptiedWorld.contents 0 = some xs ∧ (Queue.empty ⟨none, some 0⟩ = true ↔ xs = []) ∧
      (xs.length ≤ INT_MAX → Queue.size emptiedWorld.heap ⟨none, some 0⟩ = some xs.length) ∧
      ∀ n, Queue.size emptiedWorld.heap ⟨none, some 0⟩ = some n → n = xs.length :=
  ⟨⟨emptiedWorld_reachable, by decide⟩,
    c4_empty_iff_size_zero (fun _ => false) emptiedWorld emptiedWorld_reachable 0
      ⟨none, some 0⟩ (by decide)⟩

/-- C6: in every reachable world, a queue object that is not empty has its `last` at the
node that ends the chain from `first` (the chain runs through `as`, then `l`, whose `next`
is `nullptr`), and `back()` returns the last element of the traversal from `begin()` to
`end()`; and whatever the object holds, stale `last` included, after `push(x)` the call
`back()` returns `x`. -/
theorem c6_tail_is_last (throwsOn : T → Bool) (w : World T) (hr : Reachable throwsOn w)
    (i : Nat) (q : Queue) (hi : w.objs[i]? = some q) :
    (q.empty = false →
      ∃ as l xs x, Seg w.heap q.first (as ++ [l]) none ∧ q.last = some l ∧
        q.toList w.heap = some (xs ++ [x]) ∧ q.back w.heap = .ok x (w.heap, q)) ∧
    ∀ x : T, ∃ w1 q1, w.step throwsOn (.push i x) = .ok () w1 ∧ w1.objs[i]? = some q1 ∧
      Reachable throwsOn w1 ∧ q1.back w1.heap = .ok x (w1.heap, q1) := by
  obtain ⟨owned, hown, _⟩ := reachable_inv hr
  have ho := hown i q hi
  constructor
  · intro hne
    obtain ⟨bs, l, n, has, hl, hn, _⟩ := owns_nonempty_last ho hne
    rw [has] at ho
    refine ⟨bs, l, elems w.heap bs, n.data, ho.1, hl, ?_, owns_back ho hn⟩
    rw [owns_toList ho, elems_append, elems_cons hn, elems_nil]
  · intro x
    obtain ⟨h1, q1, hp, hq1⟩ := holds_push ⟨owned i, ho, rfl⟩ x
    have hstep : w.step throwsOn (.push i x) = .ok () ⟨h1, w.objs.set i q1⟩ := by
      simp [World.step, hi, hp, World.store]
    refine ⟨⟨h1, w.objs.set i q1⟩, q1, hstep, ?_, ?_, holds_back hq1⟩
    · simp only
      rw [List.getElem?_set_self (getElem?_lt hi)]
    · refine reachable_next (.push i x) hr ?_
      simp [World.next, hstep]

/-- Witness of C6: the object of `repushWorld`, popped down to empty and pushed again. -/
theorem c6_tail_is_last_witness :
    (Reachable (fun _ => false) repushWorld ∧
      repushWorld.objs[0]? = some ⟨some 1, some 2⟩) ∧
    ((Queue.empty ⟨some 1, some 2⟩ = false →
      ∃ as l xs x, Seg repushWorld.heap (Queue.first ⟨some 1, some 2⟩) (as ++ [l]) none ∧
        Queue.last ⟨some 1, some 2⟩ = some l ∧
        Queue.toList repushWorld.heap ⟨some 1, some 2⟩ = some (xs ++ [x]) ∧
        Queue.back repushWorld.heap ⟨some 1, some 2⟩
          = .ok x (repushWorld.heap, ⟨some 1, some 2⟩)) ∧
    ∀ x : Nat, ∃ w1 q1, repushWorld.step (fun _ => false) (.push 0 x) = .ok () w1 ∧
      w1.objs[0]? = some q1 ∧ Reachable (fun _ => false) w1 ∧
      q1.back w1.heap = .ok x (w1.heap, q1)) :=
  ⟨⟨repushWorld_reachable, by decide⟩,
    c6_tail_is_last (fun _ => false) repushWorld repushWorld_reachable 0 ⟨some 1, some 2⟩
      (by decide)⟩

/-! ## Assignment between objects of a world -/

theorem contents_frame {w : World T} {owned : Nat → List Nat}
    (hown : ∀ i q, w.objs[i]? = some q → Owns w.heap q (owned i)) {objs1 : List Queue}
    {h1 : Heap T} {k : Nat} (hk : objs1[k]? = w.objs[k]?)
    (hfr : ∀ p, w.objs[k]? = some p → ∀ a ∈ owned k, h1.read a = w.heap.read a) :
    World.contents ⟨h1, objs1⟩ k = w.contents k := by
  unfold World.contents
  simp only [hk]
  cases hq : w.objs[k]? with
  | none => rfl
  | some p =>
    have ho := hown k p hq
    simp only [Option.some_bind, owns_toList ho, owns_toList (owns_frame (hfr p hq) ho),
      elems_frame (hfr p hq)]

/-- C8: in a reachable world with objects `i` and `j` (the same object or two), `j` holding
`xs` whose copies do not throw, the copy assignment `i = j` returns normally; afterwards both
`i` and `j` hold `xs`, and every object other than `i` has its members and its elements
unchanged. -/
theorem c8_copy_assign (throwsOn : T → Bool) (w : World T) (hr : Reachable throwsOn w)
    (i j : Nat) (lhs rhs : Queue) (hi : w.objs[i]? = some lhs) (hj : w.objs[j]? = some rhs)
    (xs : List T) (hxs : w.contents j = some xs) (hcopy : ∀ x ∈ xs, throwsOn x = false) :
    ∃ w1, w.step throwsOn (.copyAssign i j) = .ok () w1 ∧
      w1.contents i = some xs ∧ w1.contents j = some xs ∧
      ∀ k, k ≠ i → w1.objs[k]? = w.objs[k]? ∧ w1.contents k = w.contents k := by
  obtain ⟨owned, hown, hdis⟩ := reachable_inv hr
  have hoi := hown i lhs hi
  have hoj := hown j rhs hj
  have hel : elems w.heap (owned j) = xs := by
    rw [contents_of_owns hj hoj] at hxs
    exact Option.some.inj hxs
  obtain ⟨h2, q2, _, hfr, hcase⟩ := copyAssign_spec throwsOn hoi hoj
  rcases hcase with ⟨hok, ⟨news, ho2, _, hel2⟩, _, _⟩ | ⟨_, _, _, x, hx, hxt⟩
  · have hilt := getElem?_lt hi
    have hci : World.contents ⟨h2, w.objs.set i q2⟩ i = some xs := by
      have hget : (w.objs.set i q2)[i]? = some q2 := List.getElem?_set_self hilt
      rw [contents_of_owns (w := ⟨h2, w.objs.set i q2⟩) hget ho2, hel2, hel]
    have hother : ∀ k, k ≠ i → (w.objs.set i q2)[k]? = w.objs[k]? ∧
        World.contents ⟨h2, w.objs.set i q2⟩ k = w.contents k := by
      intro k hki
      have hget : (w.objs.set i q2)[k]? = w.objs[k]? := List.getElem?_set_ne (Ne.symm hki)
      refine ⟨hget, contents_frame hown hget ?_⟩
      intro p hq a ha
      have hklt := getElem?_lt hq
      exact hfr a (fun hm => hdis i k hilt hklt (Ne.symm hki) hm ha)
        (seg_lt (hown k p hq).1 a ha)
    refine ⟨⟨h2, w.objs.set i q2⟩, ?_, hci, ?_, hother⟩
    · simp [World.step, hi, hj, hok, World.store]
    · by_cases hji : j = i
      · rw [hji]; exact hci
      · rw [(hother j hji).2]; exact hxs
  · rw [hel] at hx
    rw [hcopy x hx] at hxt
    exact absurd hxt (by simp)

theorem testWorld_reachable : Reachable (fun _ => false) testWorld :=
  ⟨[], testProgram, by decide⟩

/-- Witness of C8: the test section "copy assignment", `second_list = queue` with
`second_list` empty and `queue` holding `2, 4, 6, 8, 10`. -/
theorem c8_copy_assign_witness :
    (Reachable (fun _ => false) testWorld ∧ testWorld.objs[1]? = some Queue.default ∧
      testWorld.objs[0]? = some testQueue ∧ testWorld.contents 0 = some init_values ∧
      ∀ x ∈ init_values, (fun _ : Nat => false) x = false) ∧
    ∃ w1, testWorld.step (fun _ => false) (.copyAssign 1 0) = .ok () w1 ∧
      w1.contents 1 = some init_values ∧ w1.contents 0 = some init_values ∧
      ∀ k, k ≠ 1 → w1.objs[k]? = testWorld.objs[k]? ∧ w1.contents k = testWorld.contents k :=
  ⟨⟨testWorld_reachable, by decide, by decide, by decide, fun _ _ => rfl⟩,
    c8_copy_assign (fun _ => false) testWorld testWorld_reachable 1 0 Queue.default
      testQueue (by decide) (by decide) init_values (by decide) (fun _ _ => rfl)⟩

/-- The self-assignment `a = a` on the queue `2, 4, 6, 8, 10`: the old nodes are destroyed
and the object holds a fresh copy. -/
theorem self_assign_test :
    (World.next (fun _ => false) ⟨testHeap, [testQueue]⟩ (.copyAssign 0 0)).bind
      (fun w => w.contents 0) = some init_values := by
  decide

/-- Counterexample to C10: in `pairWorld` (`a` holds `1`, `b` holds `2, 3`) the move assignment
`a = std::move(b)` leaves the source `b` holding `1`, not empty. -/
theorem c10_move_assign_counterexample :
    Reachable (fun _ => false) pairWorld ∧
    pairWorld.contents 0 = some [1] ∧ pairWorld.contents 1 = some [2, 3] ∧
    pairWorld.step (fun _ => false) (.moveAssign 0 1)
      = .ok () ⟨pairWorld.heap, [⟨some 1, some 2⟩, ⟨some 0, some 0⟩]⟩ ∧
    World.contents ⟨pairWorld.heap, [⟨some 1, some 2⟩, ⟨some 0, some 0⟩]⟩ 0 = some [2, 3] ∧
    World.contents ⟨pairWorld.heap, [⟨some 1, some 2⟩, ⟨some 0, some 0⟩]⟩ 1 = some [1] ∧
    Queue.empty ⟨some 0, some 0⟩ = false :=
  ⟨pairWorld_reachable, by decide, by decide, by decide, by decide, by decide, by decide⟩

/-- C10, amended: in a reachable world with objects `i` and `j` (the same object or two),
the move assignment `i = std::move(j)` returns normally without touching the heap and
exchanges the members of the two objects: `i` then holds the former elements of `j`, in
order, and `j` holds the former elements of `i`, so `j` is empty exactly when `i` was. -/
theorem c10_move_assign_exchanges (throwsOn : T → Bool) (w : World T)
    (hr : Reachable throwsOn w) (i j : Nat) (dst src : Queue)
    (hi : w.objs[i]? = some dst) (hj : w.objs[j]? = some src) :
    ∃ w1 xs ys, w.contents j = some xs ∧ w.contents i = some ys ∧
      w.step throwsOn (.moveAssign i j) = .ok () w1 ∧ w1.heap = w.heap ∧
      w1.contents i = some xs ∧ w1.contents j = some ys ∧
      w1.objs[i]? = some src ∧ w1.objs[j]? = some dst ∧
      (dst.empty = true ↔ ys = []) := by
  obtain ⟨owned, hown, _⟩ := reachable_inv hr
  have hoi := hown i dst hi
  have hoj := hown j src hj
  have hilt := getElem?_lt hi
  have hjlt := getElem?_lt hj
  have hgj : ((w.objs.set i src).set j dst)[j]? = some dst :=
    List.getElem?_set_self (by simpa using hjlt)
  have hgi : ((w.objs.set i src).set j dst)[i]? = some src := by
    by_cases hij : i = j
    · have hds : dst = src := by
        rw [hij, hj] at hi
        exact (Option.some.inj hi).symm
      subst hij
      rw [← hds] at hgj ⊢
      exact hgj
    · rw [List.getElem?_set_ne (Ne.symm hij), List.getElem?_set_self hilt]
  refine ⟨⟨w.heap, (w.objs.set i src).set j dst⟩, elems w.heap (owned j),
    elems w.heap (owned i), contents_of_owns hj hoj, contents_of_owns hi hoi, ?_, rfl,
    ?_, ?_, hgi, hgj, ?_⟩
  · simp only [World.step, hi, hj]
    rfl
  · exact contents_of_owns (w := ⟨w.heap, (w.objs.set i src).set j dst⟩) hgi hoj
  · exact contents_of_owns (w := ⟨w.heap, (w.objs.set i src).set j dst⟩) hgj hoi
  · exact holds_empty ⟨owned i, hoi, rfl⟩

/-- Witness of C10, amended: `a = std::move(b)` in `pairWorld`. -/
theorem c10_move_assign_exchanges_witness :
    (Reachable (fun _ => false) pairWorld ∧ pairWorld.objs[0]? = some ⟨some 0, some 0⟩ ∧
      pairWorld.objs[1]? = some ⟨some 1, some 2⟩) ∧
    ∃ w1 xs ys, pairWorld.contents 1 = some xs ∧ pairWorld.contents 0 = some ys ∧
      pairWorld.step (fun _ => false) (.moveAssign 0 1) = .ok () w1 ∧
      w1.heap = pairWorld.heap ∧ w1.contents 0 = some xs ∧ w1.contents 1 = some ys ∧
      w1.objs[0]? = some ⟨some 1, some 2⟩ ∧ w1.objs[1]? = some ⟨some 0, some 0⟩ ∧
      (Queue.empty ⟨some 0, some 0⟩ = true ↔ ys = []) :=
  ⟨⟨pairWorld_reachable, by decide, by decide⟩,
    c10_move_assign_exchanges (fun _ => false) pairWorld pairWorld_reachable 0 1
      ⟨some 0, some 0⟩ ⟨some 1, some 2⟩ (by decide) (by decide)⟩

/-! ## Failure of an element copy -/

theorem Heap.read_ge {h : Heap T} {a : Nat} (ha : h.length ≤ a) : h.read a = none := by
  cases hr : h.read a with
  | none => rfl
  | some n =>
    have := Heap.read_lt hr
    omega

theorem seg_unique {h : Heap T} {as : List Nat} :
    ∀ {p : Option Nat} {bs : List Nat}, Seg h p as none → Seg h p bs none → as = bs := by
  induction as with
  | nil =>
    intro p bs ha hb
    have hp : p = none := seg_nil.mp ha
    subst hp
    cases bs with
    | nil => rfl
    | cons b bs =>
      have := (seg_cons.mp hb).1
      simp at this
  | cons a as ih =>
    intro p bs ha hb
    obtain ⟨hp, n, hn, hrest⟩ := seg_cons.mp ha
    subst hp
    cases bs with
    | nil =>
      have := seg_nil.mp hb
      simp at this
    | cons b bs =>
      obtain ⟨hp2, n2, hn2, hrest2⟩ := seg_cons.mp hb
      have hab : a = b := Option.some.inj hp2
      subst hab
      rw [hn] at hn2
      cases hn2
      rw [ih hrest hrest2]

theorem owns_unique {h : Heap T} {q : Queue} {as bs : List Nat} (ha : Owns h q as)
    (hb : Owns h q bs) : as = bs :=
  seg_unique ha.1 hb.1

theorem copyLoop_owned (throwsOn : T → Bool) (base : Nat) (rest : List Nat) :
    ∀ (fuel : Nat) (h : Heap T) (this : Queue) (ts : List Nat) (loop : Option Nat),
      Seg h loop rest none → Owns h this ts → List.Disjoint ts rest → rest.length ≤ fuel →
      (∀ a, base ≤ a → a < h.length → a ∈ ts) →
      ∀ (e : Err) (h1 : Heap T) (this1 : Queue) (as : List Nat),
        copyLoop throwsOn fuel h this loop = .raised e (h1, this1) → Owns h1 this1 as →
        ∀ a, base ≤ a → a < h1.length → a ∈ as := by
  induction rest with
  | nil =>
    intro fuel h this ts loop hs _ _ _ _ e h1 this1 as hc
    rw [seg_nil.mp hs] at hc
    cases fuel <;> simp [copyLoop] at hc
  | cons a rest ih =>
    intro fuel h this ts loop hs ho hdis hfuel hown e h1 this1 as hc ho1
    obtain ⟨hp, n, hn, hrest⟩ := seg_cons.mp hs
    subst hp
    have halt : a < h.length := Heap.read_lt hn
    have hats : a ∉ ts := fun hm => hdis hm (List.mem_cons_self _ _)
    cases fuel with
    | zero => simp at hfuel
    | succ fuel =>
      cases hthrow : throwsOn n.data with
      | true =>
        simp only [copyLoop, hn, Queue.pushCopy, hthrow, if_true] at hc
        cases hc
        rw [owns_unique ho1 ho]
        exact hown
      | false =>
        obtain ⟨hp, qp, hpush, hop, _, hlen, hfr⟩ := push_spec ho n.data
        have hrd : hp.read a = some n := by
          rw [hfr a hats (Nat.ne_of_lt halt)]; exact hn
        have hrest_lt : ∀ b ∈ rest, b < h.length := seg_lt hrest
        have hrest_ts : ∀ b ∈ rest, b ∉ ts := fun b hb hm =>
          hdis hm (List.mem_cons_of_mem _ hb)
        have hfr_rest : ∀ b ∈ rest, hp.read b = h.read b := fun b hb =>
          hfr b (hrest_ts b hb) (Nat.ne_of_lt (hrest_lt b hb))
        have hdis1 : List.Disjoint (ts ++ [h.length]) rest := by
          intro b hb hb'
          rcases List.mem_append.mp hb with h1 | h1
          · exact hrest_ts b hb' h1
          · rw [List.mem_singleton.mp h1] at hb'
            exact Nat.lt_irrefl _ (hrest_lt _ hb')
        have hstep : copyLoop throwsOn (fuel + 1) h this (some a)
            = copyLoop throwsOn fuel hp qp n.next := by
          simp [copyLoop, hn, Queue.pushCopy, hthrow, hpush, hrd]
        rw [hstep] at hc
        refine ih fuel hp qp (ts ++ [h.length]) n.next (seg_frame hfr_rest hrest) hop hdis1
          (by simpa using hfuel) ?_ e h1 this1 as hc ho1
        intro b hb hblt
        rw [hlen] at hblt
        by_cases hbl : b = h.length
        · simp [hbl]
        · exact List.mem_append_left _ (hown b hb (by omega))

theorem copyConstruct_raised (throwsOn : T → Bool) {h : Heap T} {source : Queue}
    {ss : List Nat} (ho : Owns h source ss) {x : T} (hx : x ∈ elems h ss)
    (hthrow : throwsOn x = true) :
    ∃ h1 last, Queue.copyConstruct throwsOn h source
        = .raised .element_copy (h1, ⟨none, last⟩) ∧
      h.length ≤ h1.length ∧ ∀ a, h1.read a = h.read a := by
  obtain ⟨h1, q1, news, ho1, hnews, hlen, hfr, hcase⟩ :=
    copyLoop_spec throwsOn ss h.length h Queue.default [] source.first ho.1 (owns_default h)
      (by simp) (owns_length_le ho)
  rw [List.nil_append] at ho1
  rcases hcase with ⟨_, _, hno⟩ | ⟨hraise, _⟩
  · rw [hno x hx] at hthrow
    exact absurd hthrow (by simp)
  · have hown := copyLoop_owned throwsOn h.length ss h.length h Queue.default []
      source.first ho.1 (owns_default h) (by simp) (owns_length_le ho)
      (fun a h1' h2' => absurd h2' (by omega)) _ h1 q1 news hraise ho1
    refine ⟨freeAll h1 news, q1.last, ?_, ?_, ?_⟩
    · simp [Queue.copyConstruct, hraise, popLoop_spec news h1.length h1 q1 ho1
        (owns_length_le ho1)]
    · rw [length_freeAll]; exact hlen
    · intro a
      by_cases ha : a < h.length
      · rw [read_freeAll_of_not_mem news h1 a (fun hm => by have := hnews a hm; omega)]
        exact hfr a (by simp) ha
      · rw [Heap.read_ge (Nat.le_of_not_lt ha)]
        by_cases ha1 : a < h1.length
        · exact read_freeAll_of_mem news h1 a (hown a (Nat.le_of_not_lt ha) ha1)
        · exact Heap.read_ge (by rw [length_freeAll]; omega)

theorem read_eq_frame {h h1 : Heap T} (hfr : ∀ a, h1.read a = h.read a) {q : Queue}
    {xs : List T} (hq : Holds h q xs) : Holds h1 q xs := by
  obtain ⟨as, ho, he⟩ := hq
  exact ⟨as, owns_frame (fun a _ => hfr a) ho, (elems_frame (fun a _ => hfr a)).trans he⟩

/-- C12: when the copy of an element of a valid source queue throws, the copy constructor
throws that exception; the object under construction is left with `first` null, the live
nodes of the heap are exactly those from before the call (every node appended to the
destination is destroyed, no cell of the source is touched), and the source still holds its
elements (its `size()` returns their number when that is at most `INT_MAX`). -/
theorem c12_copy_construct_failure (throwsOn : T → Bool) (h : Heap T) (src : Queue)
    (xs : List T) (hq : Holds h src xs) (x : T) (hx : x ∈ xs) (hthrow : throwsOn x = true) :
    ∃ h1 this1, Queue.copyConstruct throwsOn h src = .raised .element_copy (h1, this1) ∧
      this1.first = none ∧ this1.empty = true ∧ this1.size h1 = some 0 ∧
      (∀ a, h1.read a = h.read a) ∧
      Holds h1 src xs ∧ src.toList h1 = some xs ∧
      (xs.length ≤ INT_MAX → src.size h1 = some xs.length) := by
  obtain ⟨ss, ho, rfl⟩ := hq
  obtain ⟨h1, last, hc, _, hfr⟩ := copyConstruct_raised throwsOn ho hx hthrow
  have hs1 : Holds h1 src (elems h ss) := read_eq_frame hfr ⟨ss, ho, rfl⟩
  exact ⟨h1, ⟨none, last⟩, hc, rfl, rfl,
    holds_size (holds_empty_queue h1 last) (Nat.zero_le _), hfr, hs1, holds_toList hs1,
    holds_size hs1⟩

/-- Witness of C12: copying the queue `2, 4, 6, 8, 10` when the copy of `6` throws; two nodes
were appended and are destroyed. -/
theorem c12_copy_construct_failure_witness :
    (Holds testHeap testQueue init_values ∧ 6 ∈ init_values ∧
      (fun x : Nat => x == 6) 6 = true) ∧
    ∃ h1 this1, Queue.copyConstruct (fun x : Nat => x == 6) testHeap testQueue
        = .raised .element_copy (h1, this1) ∧
      this1.first = none ∧ this1.empty = true ∧ this1.size h1 = some 0 ∧
      (∀ a, h1.read a = testHeap.read a) ∧
      Holds h1 testQueue init_values ∧ testQueue.toList h1 = some init_values ∧
      (init_values.length ≤ INT_MAX → testQueue.size h1 = some init_values.length) :=
  ⟨⟨⟨[0, 1, 2, 3, 4], by decide, by decide⟩, by decide, rfl⟩,
    c12_copy_construct_failure (fun x : Nat => x == 6) testHeap testQueue init_values
      ⟨[0, 1, 2, 3, 4], by decide, by decide⟩ 6 (by decide) rfl⟩

/-- The heap and the object the failed copy of the witness leaves: the two appended nodes
(cells 5 and 6) are destroyed. -/
theorem copy_failure_test :
    Queue.copyConstruct (fun x : Nat => x == 6) testHeap testQueue
      = .raised .element_copy (testHeap ++ [none, none], ⟨none, some 6⟩) := by
  decide

/-! ## Swap and failed assignment between objects of a world -/

theorem set_getElem?_self {α : Type} {l : List α} {i : Nat} {a : α} (hi : l[i]? = some a) :
    l.set i a = l := by
  apply List.ext_getElem?
  intro k
  by_cases hk : k = i
  · subst hk
    rw [List.getElem?_set_self (getElem?_lt hi), hi]
  · rw [List.getElem?_set_ne (Ne.symm hk)]

theorem exchange_twice {α : Type} {l : List α} {i j : Nat} {a b : α}
    (hi : l[i]? = some a) (hj : l[j]? = some b) :
    ∃ b1, ((l.set i b).set j a)[i]? = some b1 ∧ ((l.set i b).set j a)[j]? = some a ∧
      (((l.set i b).set j a).set i a).set j b1 = l := by
  have hilt := getElem?_lt hi
  have hjlt := getElem?_lt hj
  have hgj : ((l.set i b).set j a)[j]? = some a :=
    List.getElem?_set_self (by simpa using hjlt)
  have hgi : ((l.set i b).set j a)[i]? = some (if i = j then a else b) := by
    by_cases hij : i = j
    · rw [if_pos hij]
      subst hij
      exact hgj
    · rw [if_neg hij, List.getElem?_set_ne (Ne.symm hij), List.getElem?_set_self hilt]
  refine ⟨_, hgi, hgj, ?_⟩
  apply List.ext_getElem?
  intro k
  rw [getElem?_exchange hgi hgj k, getElem?_exchange hi hj, Equiv.swap_apply_self]

/-- C11: in a reachable world with objects `i` and `j` (the same object or two) holding `xs`
and `ys`, `i.swap(j)` returns normally without touching the heap; afterwards the members
`first` and `last` of `i` are those `j` had and conversely, so `i` holds `ys` and `j` holds
`xs` with the other's `front()` and `back()`; and a second `i.swap(j)` restores the
world. -/
theorem c11_swap_exchanges (throwsOn : T → Bool) (w : World T) (hr : Reachable throwsOn w)
    (i j : Nat) (a b : Queue) (hi : w.objs[i]? = some a) (hj : w.objs[j]? = some b) :
    ∃ w1 xs ys, w.contents i = some xs ∧ w.contents j = some ys ∧
      w.step throwsOn (.swap i j) = .ok () w1 ∧ w1.heap = w.heap ∧
      w1.objs[i]? = some b ∧ w1.objs[j]? = some a ∧
      w1.contents i = some ys ∧ w1.contents j = some xs ∧
      b.front w1.heap = b.front w.heap ∧ b.back w1.heap = b.back w.heap ∧
      a.front w1.heap = a.front w.heap ∧ a.back w1.heap = a.back w.heap ∧
      w1.step throwsOn (.swap i j) = .ok () w := by
  obtain ⟨owned, hown, _⟩ := reachable_inv hr
  have hoi := hown i a hi
  have hoj := hown j b hj
  have hilt := getElem?_lt hi
  have hjlt := getElem?_lt hj
  obtain ⟨b1, hgi, hgj, hback⟩ := exchange_twice hi hj
  have hb1 : b1 = b := by
    by_cases hij : i = j
    · subst hij
      rw [hgj] at hgi
      rw [hi] at hj
      rw [← Option.some.inj hgi, Option.some.inj hj]
    · rw [List.getElem?_set_ne (Ne.symm hij), List.getElem?_set_self hilt] at hgi
      exact (Option.some.inj hgi).symm
  subst hb1
  refine ⟨⟨w.heap, (w.objs.set i b1).set j a⟩, elems w.heap (owned i),
    elems w.heap (owned j), contents_of_owns hi hoi, contents_of_owns hj hoj, ?_, rfl,
    hgi, hgj, ?_, ?_, rfl, rfl, rfl, rfl, ?_⟩
  · simp only [World.step, hi, hj]
    rfl
  · exact contents_of_owns (w := ⟨w.heap, (w.objs.set i b1).set j a⟩) hgi hoj
  · exact contents_of_owns (w := ⟨w.heap, (w.objs.set i b1).set j a⟩) hgj hoi
  · simp only [World.step, hgi, hgj]
    have : (b1.swap a).1 = a := rfl
    have h2 : (b1.swap a).2 = b1 := rfl
    rw [this, h2, hback]

/-- Witness of C11: `a.swap(b)` in `pairWorld`, where `a` holds `1` and `b` holds `2, 3`. -/
theorem c11_swap_exchanges_witness :
    (Reachable (fun _ => false) pairWorld ∧ pairWorld.objs[0]? = some ⟨some 0, some 0⟩ ∧
      pairWorld.objs[1]? = some ⟨some 1, some 2⟩) ∧
    ∃ w1 xs ys, pairWorld.contents 0 = some xs ∧ pairWorld.contents 1 = some ys ∧
      pairWorld.step (fun _ => false) (.swap 0 1) = .ok () w1 ∧ w1.heap = pairWorld.heap ∧
      w1.objs[0]? = some ⟨some 1, some 2⟩ ∧ w1.objs[1]? = some ⟨some 0, some 0⟩ ∧
      w1.contents 0 = some ys ∧ w1.contents 1 = some xs ∧
      Queue.front w1.heap ⟨some 1, some 2⟩ = Queue.front pairWorld.heap ⟨some 1, some 2⟩ ∧
      Queue.back w1.heap ⟨some 1, some 2⟩ = Queue.back pairWorld.heap ⟨some 1, some 2⟩ ∧
      Queue.front w1.heap ⟨some 0, some 0⟩ = Queue.front pairWorld.heap ⟨some 0, some 0⟩ ∧
      Queue.back w1.heap ⟨some 0, some 0⟩ = Queue.back pairWorld.heap ⟨some 0, some 0⟩ ∧
      w1.step (fun _ => false) (.swap 0 1) = .ok () pairWorld :=
  ⟨⟨pairWorld_reachable, by decide, by decide⟩,
    c11_swap_exchanges (fun _ => false) pairWorld pairWorld_reachable 0 1 ⟨some 0, some 0⟩
      ⟨some 1, some 2⟩ (by decide) (by decide)⟩

/-- The swap of the witness, evaluated: `a` then holds `2, 3` with back `3`, `b` holds `1`. -/
theorem swap_test :
    pairWorld.step (fun _ => false) (.swap 0 1)
        = .ok () ⟨pairWorld.heap, [⟨some 1, some 2⟩, ⟨some 0, some 0⟩]⟩ ∧
      World.contents ⟨pairWorld.heap, [⟨some 1, some 2⟩, ⟨some 0, some 0⟩]⟩ 0 = some [2, 3] ∧
      World.contents ⟨pairWorld.heap, [⟨some 1, some 2⟩, ⟨some 0, some 0⟩]⟩ 1 = some [1] ∧
      Queue.back pairWorld.heap ⟨some 1, some 2⟩
        = .ok 3 (pairWorld.heap, ⟨some 1, some 2⟩) := by
  decide

/-- C13: in a reachable world with objects `i` and `j` (the same object or two), when the copy
of an element of `j` throws, the copy assignment `i = j` throws that exception; no object has
its members changed, the live nodes of the heap are exactly those from before, and every
object, `i` and `j` included, holds the elements it held. -/
theorem c13_copy_assign_failure (throwsOn : T → Bool) (w : World T)
    (hr : Reachable throwsOn w) (i j : Nat) (lhs rhs : Queue) (hi : w.objs[i]? = some lhs)
    (hj : w.objs[j]? = some rhs) (xs : List T) (hxs : w.contents j = some xs) (x : T)
    (hx : x ∈ xs) (hthrow : throwsOn x = true) :
    ∃ w1, w.step throwsOn (.copyAssign i j) = .raised .element_copy w1 ∧
      w1.objs = w.objs ∧ (∀ a, w1.heap.read a = w.heap.read a) ∧
      (∀ k, w1.contents k = w.contents k) ∧ Reachable throwsOn w1 := by
  obtain ⟨owned, hown, _⟩ := reachable_inv hr
  have hoj := hown j rhs hj
  have hel : elems w.heap (owned j) = xs := by
    rw [contents_of_owns hj hoj] at hxs
    exact Option.some.inj hxs
  rw [← hel] at hx
  obtain ⟨h1, last, hc, _, hfr⟩ := copyConstruct_raised throwsOn hoj hx hthrow
  have hstep : w.step throwsOn (.copyAssign i j) = .raised .element_copy ⟨h1, w.objs⟩ := by
    simp only [World.step, hi, hj, Queue.copyAssign, hc, World.store, set_getElem?_self hi]
  refine ⟨⟨h1, w.objs⟩, hstep, rfl, hfr, ?_, ?_⟩
  · intro k
    exact contents_frame hown rfl (fun _ _ a _ => hfr a)
  · refine reachable_next (.copyAssign i j) hr ?_
    simp [World.next, hstep]

/-- Witness of C13: `second_list = queue` in `testWorld` when the copy of `6` throws. -/
theorem c13_copy_assign_failure_witness :
    (Reachable (fun x : Nat => x == 6) testWorld ∧ testWorld.objs[1]? = some Queue.default ∧
      testWorld.objs[0]? = some testQueue ∧ testWorld.contents 0 = some init_values ∧
      6 ∈ init_values ∧ (fun x : Nat => x == 6) 6 = true) ∧
    ∃ w1, testWorld.step (fun x : Nat => x == 6) (.copyAssign 1 0)
        = .raised .element_copy w1 ∧
      w1.objs = testWorld.objs ∧ (∀ a, w1.heap.read a = testWorld.heap.read a) ∧
      (∀ k, w1.contents k = testWorld.contents k) ∧
      Reachable (fun x : Nat => x == 6) w1 :=
  ⟨⟨⟨[], testProgram, by decide⟩, by decide, by decide, by decide, by decide, rfl⟩,
    c13_copy_assign_failure (fun x : Nat => x == 6) testWorld ⟨[], testProgram, by decide⟩
      1 0 Queue.default testQueue (by decide) (by decide) init_values (by decide) 6
      (by decide) rfl⟩

/-! ## `emplace` -/

theorem elems_length_of_live {h : Heap T} {as : List Nat}
    (hl : ∀ a ∈ as, ∃ n, h.read a = some n) : (elems h as).length = as.length := by
  induction as with
  | nil => rfl
  | cons a as ih =>
    obtain ⟨n, hn⟩ := hl a (List.mem_cons_self _ _)
    rw [elems_cons hn, List.length_cons, List.length_cons,
      ih (fun b hb => hl b (List.mem_cons_of_mem _ hb))]

theorem elems_split {h : Heap T} {as : List Nat} (hl : ∀ a ∈ as, ∃ n, h.read a = some n)
    {xs ys : List T} (he : elems h as = xs ++ ys) :
    elems h (as.take xs.length) = xs ∧ elems h (as.drop xs.length) = ys := by
  have hlen : as.length = xs.length + ys.length := by
    rw [← elems_length_of_live hl, he, List.length_append]
  have htake : (elems h (as.take xs.length)).length = xs.length := by
    rw [elems_length_of_live (fun a ha => hl a (List.mem_of_mem_take ha)), List.length_take]
    omega
  have hsplit : elems h (as.take xs.length) ++ elems h (as.drop xs.length) = xs ++ ys := by
    rw [← elems_append, List.take_append_drop, he]
  exact List.append_inj hsplit htake

theorem emplace_front_spec {h : Heap T} {q : Queue} {as : List Nat} (ho : Owns h q as)
    (v : T) :
    ∃ h1 q1, q.emplace_front h v = .ok () (h1, q1) ∧ q1.first = some h.length ∧
      Owns h1 q1 (h.length :: as) ∧ elems h1 (h.length :: as) = v :: elems h as := by
  have hfr : ∀ a ∈ as, (h.alloc ⟨v, q.first⟩).read a = h.read a := fun a ha =>
    Heap.read_alloc_lt h _ (seg_lt ho.1 a ha)
  have hnew : (h.alloc ⟨v, q.first⟩).read h.length = some ⟨v, q.first⟩ :=
    Heap.read_alloc_fresh h _
  refine ⟨h.alloc ⟨v, q.first⟩,
    ⟨some h.length, if q.first == none then some h.length else q.last⟩, rfl, rfl, ?_, ?_⟩
  · refine ⟨seg_cons.mpr ⟨rfl, _, hnew, seg_frame hfr ho.1⟩, ?_, Or.inr ?_⟩
    · refine List.nodup_cons.mpr ⟨fun hm => ?_, ho.2.1⟩
      exact Nat.lt_irrefl _ (seg_lt ho.1 _ hm)
    · cases as with
      | nil => simp [seg_nil.mp ho.1]
      | cons a as =>
        have hp := (seg_cons.mp ho.1).1
        rcases ho.2.2 with h0 | h1
        · simp at h0
        · simp only [hp, List.getLast?_cons_cons]
          simpa using h1
  · rw [elems_cons hnew, elems_frame hfr]

theorem emplace_spec {h : Heap T} {q : Queue} {A B : List Nat} {a b : Nat}
    (ho : Owns h q (A ++ a :: b :: B)) (v : T) :
    ∃ n, h.read a = some n ∧
      q.emplace h ⟨some a, false⟩ v = .ok ⟨some h.length, false⟩
        ((h.alloc ⟨v, some b⟩).write a ⟨n.data, some h.length⟩, q) ∧
      Owns ((h.alloc ⟨v, some b⟩).write a ⟨n.data, some h.length⟩) q
        (A ++ a :: h.length :: b :: B) ∧
      elems ((h.alloc ⟨v, some b⟩).write a ⟨n.data, some h.length⟩)
          (A ++ a :: h.length :: b :: B)
        = elems h (A ++ [a]) ++ v :: elems h (b :: B) := by
  obtain ⟨hseg, hnd, hlast⟩ := ho
  obtain ⟨m, hA, hrest⟩ := seg_append.mp hseg
  obtain ⟨hm, n, hn, hbB⟩ := seg_cons.mp hrest
  subst hm
  have hnext : n.next = some b := (seg_cons.mp hbB).1
  have halt : a < h.length := Heap.read_lt hn
  have hlt : ∀ c ∈ A ++ a :: b :: B, c < h.length := seg_lt hseg
  have hnd2 := List.nodup_append.mp hnd
  have haA : a ∉ A := fun hm => hnd2.2.2 hm (List.mem_cons_self _ _)
  have haB : a ∉ b :: B := (List.nodup_cons.mp hnd2.2.1).1
  have hwl : a < (h.alloc ⟨v, some b⟩).length := by
    rw [Heap.length_alloc]; omega
  have hra : ((h.alloc ⟨v, some b⟩).write a ⟨n.data, some h.length⟩).read a
      = some ⟨n.data, some h.length⟩ := Heap.read_write_eq _ _ hwl
  have hrn : ((h.alloc ⟨v, some b⟩).write a ⟨n.data, some h.length⟩).read h.length
      = some ⟨v, some b⟩ := by
    rw [Heap.read_write_ne _ _ (Nat.ne_of_gt halt)]
    exact Heap.read_alloc_fresh h _
  have hfr : ∀ c, c ≠ a → c < h.length →
      ((h.alloc ⟨v, some b⟩).write a ⟨n.data, some h.length⟩).read c = h.read c :=
    fun c hca hc => by rw [Heap.read_write_ne _ _ hca, Heap.read_alloc_lt h _ hc]
  have hfrA : ∀ c ∈ A,
      ((h.alloc ⟨v, some b⟩).write a ⟨n.data, some h.length⟩).read c = h.read c :=
    fun c hc => hfr c (fun e => haA (e ▸ hc)) (hlt c (List.mem_append_left _ hc))
  have hfrB : ∀ c ∈ b :: B,
      ((h.alloc ⟨v, some b⟩).write a ⟨n.data, some h.length⟩).read c = h.read c :=
    fun c hc => hfr c (fun e => haB (e ▸ hc))
      (hlt c (List.mem_append_right _ (List.mem_cons_of_mem _ hc)))
  refine ⟨n, hn, ?_, ⟨?_, ?_, Or.inr ?_⟩, ?_⟩
  · simp [Queue.emplace, hn, hnext, Heap.fresh]
  · refine seg_append.mpr ⟨some a, seg_frame hfrA hA, ?_⟩
    exact seg_cons.mpr ⟨rfl, _, hra, seg_cons.mpr ⟨rfl, _, hrn, seg_frame hfrB
      (by rw [hnext] at hbB; exact hbB)⟩⟩
  · refine List.nodup_append.mpr ⟨hnd2.1, ?_, ?_⟩
    · refine List.nodup_cons.mpr ⟨?_, List.nodup_cons.mpr ⟨?_, (List.nodup_cons.mp hnd2.2.1).2⟩⟩
      · intro hm
        rcases List.mem_cons.mp hm with h0 | h0
        · omega
        · exact haB h0
      · intro hm
        exact Nat.lt_irrefl _ (hlt _ (List.mem_append_right _ (List.mem_cons_of_mem _ hm)))
    · intro c hcA hc
      rcases List.mem_cons.mp hc with h0 | h0
      · exact hnd2.2.2 hcA (by rw [h0]; exact List.mem_cons_self _ _)
      · rcases List.mem_cons.mp h0 with h1 | h1
        · have := hlt c (List.mem_append_left _ hcA)
          omega
        · exact hnd2.2.2 hcA (List.mem_cons_of_mem _ h1)
  · rcases hlast with h0 | h1
    · simp at h0
    · rw [h1]
      simp [List.getLast?_append, List.getLast?_cons_cons]
  · rw [elems_append, elems_cons hra, elems_cons hrn, elems_frame hfrA, elems_frame hfrB,
      elems_append, elems_cons hn, elems_nil]
    simp

theorem emplace_tail_undefined {h : Heap T} {q : Queue} {A : List Nat} {l : Nat}
    (ho : Owns h q (A ++ [l])) (v : T) : q.emplace h ⟨some l, false⟩ v = .undefined := by
  obtain ⟨_, n, hn, hnext⟩ := seg_last_next ho.1
  simp [Queue.emplace, hn, hnext]

/-- C14: on a valid queue holding `pre ++ [p] ++ s :: post`, `emplace(pos, v)` with `pos` at
the node that holds `p` (the node number `pre.length` of the chain, which has a successor)
returns normally; the queue then holds `pre ++ [p, v] ++ s :: post`, one element more than
before; `front()` and `back()` return what they returned before; the returned iterator is at
a node holding `v`; and `size()`, which returned the number `n` of nodes before, returns
`n + 1`, provided `n + 1` is at most `INT_MAX` (whenever `size()` returns before and after,
the second value is the first plus 1). -/
theorem c14_emplace_splice (h : Heap T) (q : Queue) (as : List Nat) (ho : Owns h q as)
    (pre post : List T) (p s : T) (hx : elems h as = pre ++ [p] ++ s :: post) (v : T) :
    const_iterator.deref h ⟨as[pre.length]?, false⟩ = some p ∧
    ∃ h1 it, q.emplace h ⟨as[pre.length]?, false⟩ v = .ok it (h1, q) ∧
      Holds h1 q (pre ++ [p, v] ++ s :: post) ∧
      q.toList h1 = some (pre ++ [p, v] ++ s :: post) ∧
      it.deref h1 = some v ∧ it.before_begin = false ∧
      (pre ++ [p, v] ++ s :: post).length = (pre ++ [p] ++ s :: post).length + 1 ∧
      (as.length + 1 ≤ INT_MAX →
        q.size h = some as.length ∧ q.size h1 = some (as.length + 1)) ∧
      (∀ n m, q.size h = some n → q.size h1 = some m → m = n + 1) ∧
      (∃ x, q.front h = .ok x (h, q) ∧ q.front h1 = .ok x (h1, q)) ∧
      ∃ y, q.back h = .ok y (h, q) ∧ q.back h1 = .ok y (h1, q) := by
  have hlive : ∀ a ∈ as, ∃ n, h.read a = some n := seg_live ho.1
  have hx' : elems h as = pre ++ (p :: s :: post) := by simpa using hx
  obtain ⟨hpre, hrest⟩ := elems_split hlive hx'
  have hAlen : (as.take pre.length).length = pre.length := by
    rw [← hpre, elems_length_of_live (fun a ha => hlive a (List.mem_of_mem_take ha))]
    simp [hpre]
  have hdlive : ∀ a ∈ as.drop pre.length, ∃ n, h.read a = some n :=
    fun a ha => hlive a (List.mem_of_mem_drop ha)
  have has : as = as.take pre.length ++ as.drop pre.length := (List.take_append_drop _ _).symm
  generalize as.take pre.length = A at hpre hAlen has
  generalize as.drop pre.length = R at hrest hdlive has
  cases R with
  | nil => simp [elems] at hrest
  | cons a R =>
    obtain ⟨na, hna⟩ := hdlive a (List.mem_cons_self _ _)
    rw [elems_cons hna] at hrest
    obtain ⟨hp, hrest⟩ := List.cons.inj hrest
    cases R with
    | nil => simp [elems] at hrest
    | cons b B =>
      subst has
      obtain ⟨n, hn, hem, ho1, hel⟩ := emplace_spec ho v
      rw [hna] at hn
      cases hn
      have hpos : (A ++ a :: b :: B)[pre.length]? = some a := by
        rw [← hAlen, List.getElem?_append_right (le_refl _)]
        simp
      have hnew : ((h.alloc ⟨v, some b⟩).write a ⟨na.data, some h.length⟩).read h.length
          = some ⟨v, some b⟩ := by
        rw [Heap.read_write_ne _ _ (Nat.ne_of_gt (Heap.read_lt hna))]
        exact Heap.read_alloc_fresh h _
      have hq0 : Holds h q (pre ++ [p] ++ s :: post) := ⟨_, ho, hx⟩
      have hq1 : Holds ((h.alloc ⟨v, some b⟩).write a ⟨na.data, some h.length⟩) q
          (pre ++ [p, v] ++ s :: post) := by
        refine ⟨_, ho1, ?_⟩
        rw [hel, elems_append, hpre, elems_cons hna, elems_nil, hp, hrest]
        simp
      rw [hpos]
      refine ⟨by simp [const_iterator.deref, hna, hp], _, _, hem, hq1, holds_toList hq1,
        by simp [iterator.deref, hnew], rfl, by simp; omega, ?_, ?_, ?_, ?_⟩
      · intro hmax
        have hl1 : (A ++ a :: h.length :: b :: B).length
            = (A ++ a :: b :: B).length + 1 := by simp; omega
        refine ⟨owns_size ho (by omega), ?_⟩
        rw [owns_size ho1 (by omega), hl1]
      · intro n m hn hm
        have hl1 : (A ++ a :: h.length :: b :: B).length
            = (A ++ a :: b :: B).length + 1 := by simp; omega
        rw [(owns_size_some ho hn).1, (owns_size_some ho1 hm).1, hl1]
      · obtain ⟨x, tl, hxt⟩ : ∃ x tl, pre ++ [p] = x :: tl := by
          cases pre with
          | nil => exact ⟨p, [], rfl⟩
          | cons x tl => exact ⟨x, tl ++ [p], rfl⟩
        have e0 : pre ++ [p] ++ s :: post = x :: (tl ++ s :: post) := by rw [hxt]; rfl
        have e1 : pre ++ [p, v] ++ s :: post = x :: (tl ++ v :: s :: post) := by
          have : pre ++ [p, v] ++ s :: post = pre ++ [p] ++ v :: s :: post := by simp
          rw [this, hxt]; rfl
        rw [e0] at hq0
        rw [e1] at hq1
        exact ⟨x, holds_front hq0, holds_front hq1⟩
      · obtain ⟨ini, y, hy⟩ : ∃ ini y, s :: post = ini ++ [y] := by
          rcases List.eq_nil_or_concat' (s :: post) with h0 | ⟨ini, y, hy⟩
          · simp at h0
          · exact ⟨ini, y, hy⟩
        have e0 : pre ++ [p] ++ s :: post = (pre ++ [p] ++ ini) ++ [y] := by
          rw [hy]; simp
        have e1 : pre ++ [p, v] ++ s :: post = (pre ++ [p, v] ++ ini) ++ [y] := by
          rw [hy]; simp
        rw [e0] at hq0
        rw [e1] at hq1
        exact ⟨y, holds_back hq0, holds_back hq1⟩

/-- Witness of C14: `emplace(pos, 5)` on the queue `2, 4, 6, 8, 10` with `pos` at the node
holding `4`. -/
theorem c14_emplace_splice_witness :
    (Owns testHeap testQueue [0, 1, 2, 3, 4] ∧
      elems testHeap [0, 1, 2, 3, 4] = [2] ++ [4] ++ 6 :: [8, 10]) ∧
    const_iterator.deref testHeap ⟨[0, 1, 2, 3, 4][[2].length]?, false⟩ = some 4 ∧
    ∃ h1 it, testQueue.emplace testHeap ⟨[0, 1, 2, 3, 4][[2].length]?, false⟩ 5
        = .ok it (h1, testQueue) ∧
      Holds h1 testQueue ([2] ++ [4, 5] ++ 6 :: [8, 10]) ∧
      testQueue.toList h1 = some ([2] ++ [4, 5] ++ 6 :: [8, 10]) ∧
      it.deref h1 = some 5 ∧ it.before_begin = false ∧
      ([2] ++ [4, 5] ++ 6 :: [8, 10]).length = ([2] ++ [4] ++ 6 :: [8, 10]).length + 1 ∧
      ([0, 1, 2, 3, 4].length + 1 ≤ INT_MAX →
        testQueue.size testHeap = some [0, 1, 2, 3, 4].length ∧
        testQueue.size h1 = some ([0, 1, 2, 3, 4].length + 1)) ∧
      (∀ n m, testQueue.size testHeap = some n → testQueue.size h1 = some m → m = n + 1) ∧
      (∃ x, testQueue.front testHeap = .ok x (testHeap, testQueue) ∧
        testQueue.front h1 = .ok x (h1, testQueue)) ∧
      ∃ y, testQueue.back testHeap = .ok y (testHeap, testQueue) ∧
        testQueue.back h1 = .ok y (h1, testQueue) :=
  ⟨⟨by decide, by decide⟩,
    c14_emplace_splice testHeap testQueue [0, 1, 2, 3, 4] (by decide) [2] [8, 10] 4 6
      (by decide) 5⟩

/-- C15: on a valid queue holding `xs`, empty or not, `emplace(cbefore_begin(), v)` returns
normally; the queue then holds `v :: xs`, `front()` returns `v`, and the returned iterator
is `begin()` of the queue, at the node holding `v` (`size()` returns one more than the
length of `xs` when that is at most `INT_MAX`). -/
theorem c15_emplace_before_begin (h : Heap T) (q : Queue) (xs : List T)
    (hq : Holds h q xs) (v : T) :
    q.cbefore_begin.before_begin = true ∧
    ∃ h1 q1, q.emplace h q.cbefore_begin v = .ok q1.begin (h1, q1) ∧
      Holds h1 q1 (v :: xs) ∧ q1.toList h1 = some (v :: xs) ∧
      q1.front h1 = .ok v (h1, q1) ∧ q1.begin.deref h1 = some v ∧
      (xs.length + 1 ≤ INT_MAX → q1.size h1 = some (xs.length + 1)) := by
  obtain ⟨as, ho, rfl⟩ := hq
  obtain ⟨h1, q1, hef, hfirst, ho1, hel⟩ := emplace_front_spec ho v
  have hq1 : Holds h1 q1 (v :: elems h as) := ⟨_, ho1, hel⟩
  have hfront := holds_front hq1
  refine ⟨rfl, h1, q1, ?_, hq1, holds_toList hq1, hfront, ?_, ?_⟩
  · simp [Queue.emplace, Queue.cbefore_begin, Queue.before_begin_const, hef]
  · obtain ⟨_, n, hn, _⟩ := seg_cons.mp ho1.1
    have hv : n.data = v := by
      have := elems_cons hn as
      rw [hel] at this
      exact (List.cons.inj this).1.symm
    simp [iterator.deref, Queue.begin, hfirst, hn, hv]
  · intro hmax
    exact holds_size hq1 hmax

/-- Witness of C15: `emplace(cbefore_begin(), 1)` on the queue `2, 4, 6, 8, 10`. -/
theorem c15_emplace_before_begin_witness :
    Holds testHeap testQueue init_values ∧
    testQueue.cbefore_begin.before_begin = true ∧
    ∃ h1 q1, testQueue.emplace testHeap testQueue.cbefore_begin 1 = .ok q1.begin (h1, q1) ∧
      Holds h1 q1 (1 :: init_values) ∧ q1.toList h1 = some (1 :: init_values) ∧
      q1.front h1 = .ok 1 (h1, q1) ∧ q1.begin.deref h1 = some 1 ∧
      (init_values.length + 1 ≤ INT_MAX → q1.size h1 = some (init_values.length + 1)) :=
  ⟨⟨[0, 1, 2, 3, 4], by decide, by decide⟩,
    c15_emplace_before_begin testHeap testQueue init_values
      ⟨[0, 1, 2, 3, 4], by decide, by decide⟩ 1⟩

/-- C19 does not hold on the code: on the queue `2, 4, 6, 8, 10` the node at address 4
is the tail (`back()` is `10`, its `next` is null); `emplace` at that node takes no branch
and flows off the end of the function, where `push(12)` appends `12`. -/
theorem c19_emplace_at_tail :
    Holds testHeap testQueue init_values ∧
    testQueue.last = some 4 ∧ testHeap.read 4 = some ⟨10, none⟩ ∧
    testQueue.back testHeap = .ok 10 (testHeap, testQueue) ∧
    testQueue.emplace testHeap ⟨some 4, false⟩ 12 = .undefined ∧
    testQueue.emplace testHeap (iterator.toConst ⟨some 4, false⟩) 12 = .undefined ∧
    testQueue.push testHeap 12
      = .ok () ([some ⟨2, some 1⟩, some ⟨4, some 2⟩, some ⟨6, some 3⟩, some ⟨8, some 4⟩,
          some ⟨10, some 5⟩, some ⟨12, none⟩], ⟨some 0, some 5⟩) ∧
    Queue.toList ([some ⟨2, some 1⟩, some ⟨4, some 2⟩, some ⟨6, some 3⟩, some ⟨8, some 4⟩,
      some ⟨10, some 5⟩, some ⟨12, none⟩] : Heap Nat) ⟨some 0, some 5⟩
        = some (init_values ++ [12]) :=
  ⟨⟨[0, 1, 2, 3, 4], by decide, by decide⟩, by decide, by decide, by decide, by decide,
    by decide, by decide, by decide⟩

/-- The heap after the five pushes of the test case and one `pop()`. -/
theorem pop_test :
    testQueue.pop testHeap
      = .ok () ([none, some ⟨4, some 2⟩, some ⟨6, some 3⟩, some ⟨8, some 4⟩, some ⟨10, none⟩],
          ⟨some 1, some 4⟩) := by
  decide

/-- C16 does not hold on the code: after the five pushes of the test case and one
`pop()`, `front()` returns `4`, not the `8` the section "pop removes last element" requires;
`size()` returns `4`. -/
theorem c16_front_after_pop :
    pushEach Queue.push ([] : Heap Nat) Queue.default init_values
      = .ok () (testHeap, testQueue) ∧
    (∃ h1 q1, testQueue.pop testHeap = .ok () (h1, q1) ∧
      q1.front h1 = .ok 4 (h1, q1) ∧ q1.front h1 ≠ .ok 8 (h1, q1) ∧
      q1.size h1 = some 4) :=
  ⟨by decide, _, _, pop_test, by decide, by decide, by decide⟩

/-- The conversion to `const_iterator` keeps the node and sets the flag to `false`: it is
the identity on the positions at a node and on `end()`, and it sends `before_begin()` to
`cbegin()`. -/
theorem toConst_spec (it : iterator) (q : Queue) :
    it.toConst.node = it.node ∧ it.toConst.before_begin = false ∧
    (it.before_begin = false → it.toConst = ⟨it.node, it.before_begin⟩) ∧
    q.begin.toConst = q.cbegin ∧ q.end.toConst = q.cend ∧
    q.before_begin.toConst = q.cbegin ∧ q.before_begin.toConst ≠ q.cbefore_begin := by
  refine ⟨rfl, rfl, ?_, rfl, rfl, rfl, ?_⟩
  · intro hf
    simp [iterator.toConst, hf]
  · simp [iterator.toConst, Queue.before_begin, Queue.cbefore_begin,
      Queue.before_begin_const]

/-- C20 does not hold on the code: on the queue `2, 4, 6, 8, 10` the conversion of
`before_begin()` has the flag `false`; it equals `cbegin()`, compares unequal to
`cbefore_begin()`, and `++` moves it to the second node where `++` moves `before_begin()`
to the head. -/
theorem c20_conversion_of_before_begin :
    testQueue.before_begin = ⟨some 0, true⟩ ∧
    testQueue.before_begin.toConst = ⟨some 0, false⟩ ∧
    testQueue.cbefore_begin = ⟨some 0, true⟩ ∧
    testQueue.before_begin.toConst = testQueue.cbegin ∧
    testQueue.before_begin.toConst.eq testQueue.cbefore_begin = false ∧
    testQueue.before_begin.incr testHeap = some ⟨some 0, false⟩ ∧
    testQueue.cbefore_begin.incr testHeap = some ⟨some 0, false⟩ ∧
    testQueue.before_begin.toConst.incr testHeap = some ⟨some 1, false⟩ := by
  decide

/-! ## Iterator transitions -/

theorem const_incr_eq (h : Heap T) (it : iterator) :
    const_iterator.incr h ⟨it.node, it.before_begin⟩
      = (it.incr h).map fun r => ⟨r.node, r.before_begin⟩ := by
  unfold const_iterator.incr iterator.incr
  by_cases hb : it.before_begin = true
  · simp [hb]
  · simp only [hb, Bool.false_eq_true, if_false]
    cases it.node.bind h.read <;> rfl

theorem const_advance_eq (h : Heap T) (k : Nat) :
    ∀ it : iterator, const_iterator.advance h k ⟨it.node, it.before_begin⟩
      = (it.advance h k).map fun r => ⟨r.node, r.before_begin⟩ := by
  induction k with
  | zero => intro it; rfl
  | succ k ih =>
    intro it
    simp only [const_iterator.advance, iterator.advance, const_incr_eq]
    cases it.incr h with
    | none => rfl
    | some r => exact ih r

theorem seg_head {h : Heap T} {as : List Nat} {p : Option Nat} (hs : Seg h p as none) :
    p = as[0]? := by
  cases as with
  | nil => exact seg_nil.mp hs
  | cons a as => simpa using (seg_cons.mp hs).1

theorem incr_seg {h : Heap T} {as : List Nat} :
    ∀ {p : Option Nat} (k : Nat) (a : Nat), Seg h p as none → as[k]? = some a →
      iterator.incr h ⟨some a, false⟩ = some ⟨as[k + 1]?, false⟩ := by
  induction as with
  | nil => intro p k a _ hk; simp at hk
  | cons b bs ih =>
    intro p k a hs hk
    obtain ⟨_, n, hn, hrest⟩ := seg_cons.mp hs
    cases k with
    | zero =>
      simp only [List.getElem?_cons_zero, Option.some.injEq] at hk
      subst hk
      simp [iterator.incr, hn, seg_head hrest]
    | succ k =>
      simp only [List.getElem?_cons_succ] at hk ⊢
      exact ih k a hrest hk

theorem advance_seg {h : Heap T} (k : Nat) :
    ∀ {as : List Nat} {p : Option Nat}, Seg h p as none → k ≤ as.length →
      iterator.advance h k ⟨p, false⟩ = some ⟨as[k]?, false⟩ := by
  induction k with
  | zero =>
    intro as p hs _
    simp [iterator.advance, seg_head hs]
  | succ k ih =>
    intro as p hs hk
    cases as with
    | nil => simp at hk
    | cons a as =>
      obtain ⟨hp, n, hn, hrest⟩ := seg_cons.mp hs
      subst hp
      have := ih hrest (by simpa using hk)
      simp [iterator.advance, iterator.incr, hn, this]

theorem eq_end_iff (as : List Nat) (k : Nat) (hk : k ≤ as.length) (q : Queue) :
    iterator.eq ⟨as[k]?, false⟩ q.end = true ↔ k = as.length := by
  simp only [iterator.eq, Queue.end, Bool.and_eq_true, beq_iff_eq, and_true]
  rw [List.getElem?_eq_none_iff]
  omega

/-- C17: on a valid queue whose nodes are at the addresses `as`, for both iterator classes:
`++` on `before_begin()` gives `begin()`, which is at the head node and equals `end()`
exactly when the queue is empty; `++` on the iterator at node number `k` gives the iterator
at node number `k + 1`, which equals `end()` exactly when node `k` is the last; and `k`
applications of `++` to `begin()`, for `k` up to the number of nodes, give the iterator at
node number `k`, which equals `end()` exactly when `k` is the number of nodes; and the
number of nodes is what `size()` returns: always when it is at most `INT_MAX`, and whenever
`size()` returns. -/
theorem c17_iterator_transitions (h : Heap T) (q : Queue) (as : List Nat)
    (ho : Owns h q as) :
    (q.before_begin.incr h = some q.begin ∧
      q.before_begin_const.incr h = some q.begin_const ∧
      q.cbefore_begin.incr h = some q.cbegin) ∧
    (q.begin = ⟨as[0]?, false⟩ ∧ q.begin_const = ⟨as[0]?, false⟩ ∧
      (q.begin.eq q.end = true ↔ as = []) ∧
      (q.begin_const.eq q.end_const = true ↔ as = [])) ∧
    (∀ k a, as[k]? = some a →
      iterator.incr h ⟨some a, false⟩ = some ⟨as[k + 1]?, false⟩ ∧
      const_iterator.incr h ⟨some a, false⟩ = some ⟨as[k + 1]?, false⟩ ∧
      (iterator.eq ⟨as[k + 1]?, false⟩ q.end = true ↔ k + 1 = as.length) ∧
      (const_iterator.eq ⟨as[k + 1]?, false⟩ q.end_const = true ↔ k + 1 = as.length)) ∧
    (∀ k, k ≤ as.length →
      iterator.advance h k q.begin = some ⟨as[k]?, false⟩ ∧
      const_iterator.advance h k q.begin_const = some ⟨as[k]?, false⟩ ∧
      (iterator.eq ⟨as[k]?, false⟩ q.end = true ↔ k = as.length) ∧
      (const_iterator.eq ⟨as[k]?, false⟩ q.end_const = true ↔ k = as.length)) ∧
    (as.length ≤ INT_MAX → q.size h = some as.length) ∧
    (∀ n, q.size h = some n →
      n = as.length ∧ iterator.advance h n q.begin = some q.end ∧
      ∀ k, k < n → ∃ it, iterator.advance h k q.begin = some it ∧ it.eq q.end = false) := by
  have hbegin : q.begin = ⟨as[0]?, false⟩ := by
    simp [Queue.begin, seg_head ho.1]
  have hceq : ∀ k : Nat, const_iterator.eq ⟨as[k]?, false⟩ q.end_const
      = iterator.eq ⟨as[k]?, false⟩ q.end := fun _ => rfl
  have hempty : iterator.eq ⟨as[0]?, false⟩ q.end = true ↔ as = [] := by
    rw [eq_end_iff as 0 (Nat.zero_le _) q]
    constructor
    · intro h0; exact List.length_eq_zero.mp h0.symm
    · intro h0; rw [h0]; rfl
  refine ⟨⟨rfl, rfl, rfl⟩, ⟨hbegin, ?_, ?_, ?_⟩, ?_, ?_, owns_size ho, ?_⟩
  rotate_right
  · intro n hn
    obtain ⟨hlen, _⟩ := owns_size_some ho hn
    subst hlen
    refine ⟨rfl, ?_, ?_⟩
    · have hadv : iterator.advance h as.length q.begin = some ⟨as[as.length]?, false⟩ :=
        advance_seg as.length ho.1 (le_refl _)
      rw [hadv]
      simp [Queue.end]
    · intro k hk
      have hadv : iterator.advance h k q.begin = some ⟨as[k]?, false⟩ :=
        advance_seg k ho.1 (Nat.le_of_lt hk)
      refine ⟨_, hadv, ?_⟩
      have := eq_end_iff as k (Nat.le_of_lt hk) q
      cases hc : iterator.eq ⟨as[k]?, false⟩ q.end
      · rfl
      · have := this.mp hc
        omega
  · simp [Queue.begin_const, seg_head ho.1]
  · rw [hbegin]; exact hempty
  · have : q.begin_const = ⟨as[0]?, false⟩ := by simp [Queue.begin_const, seg_head ho.1]
    rw [this, hceq]; exact hempty
  · intro k a hk
    have hklt : k < as.length := getElem?_lt hk
    have hi := incr_seg k a ho.1 hk
    have hc := const_incr_eq h ⟨some a, false⟩
    rw [hi] at hc
    exact ⟨hi, hc, eq_end_iff as (k + 1) hklt q, by rw [hceq]; exact eq_end_iff as (k + 1) hklt q⟩
  · intro k hk
    have ha : iterator.advance h k q.begin = some ⟨as[k]?, false⟩ := advance_seg k ho.1 hk
    have hc := const_advance_eq h k q.begin
    rw [ha] at hc
    exact ⟨ha, hc, eq_end_iff as k hk q, by rw [hceq]; exact eq_end_iff as k hk q⟩

/-- Witness of C17: the queue `2, 4, 6, 8, 10`, whose nodes are at the addresses 0 to 4. -/
theorem c17_iterator_transitions_witness :
    Owns testHeap testQueue [0, 1, 2, 3, 4] ∧
    (testQueue.before_begin.incr testHeap = some testQueue.begin ∧
      testQueue.before_begin_const.incr testHeap = some testQueue.begin_const ∧
      testQueue.cbefore_begin.incr testHeap = some testQueue.cbegin) ∧
    (testQueue.begin = ⟨[0, 1, 2, 3, 4][0]?, false⟩ ∧
      testQueue.begin_const = ⟨[0, 1, 2, 3, 4][0]?, false⟩ ∧
      (testQueue.begin.eq testQueue.end = true ↔ [0, 1, 2, 3, 4] = []) ∧
      (testQueue.begin_const.eq testQueue.end_const = true ↔ [0, 1, 2, 3, 4] = [])) ∧
    (∀ k a, [0, 1, 2, 3, 4][k]? = some a →
      iterator.incr testHeap ⟨some a, false⟩ = some ⟨[0, 1, 2, 3, 4][k + 1]?, false⟩ ∧
      const_iterator.incr testHeap ⟨some a, false⟩
        = some ⟨[0, 1, 2, 3, 4][k + 1]?, false⟩ ∧
      (iterator.eq ⟨[0, 1, 2, 3, 4][k + 1]?, false⟩ testQueue.end = true
        ↔ k + 1 = [0, 1, 2, 3, 4].length) ∧
      (const_iterator.eq ⟨[0, 1, 2, 3, 4][k + 1]?, false⟩ testQueue.end_const = true
        ↔ k + 1 = [0, 1, 2, 3, 4].length)) ∧
    (∀ k, k ≤ [0, 1, 2, 3, 4].length →
      iterator.advance testHeap k testQueue.begin = some ⟨[0, 1, 2, 3, 4][k]?, false⟩ ∧
      const_iterator.advance testHeap k testQueue.begin_const
        = some ⟨[0, 1, 2, 3, 4][k]?, false⟩ ∧
      (iterator.eq ⟨[0, 1, 2, 3, 4][k]?, false⟩ testQueue.end = true
        ↔ k = [0, 1, 2, 3, 4].length) ∧
      (const_iterator.eq ⟨[0, 1, 2, 3, 4][k]?, false⟩ testQueue.end_const = true
        ↔ k = [0, 1, 2, 3, 4].length)) ∧
    ([0, 1, 2, 3, 4].length ≤ INT_MAX →
      testQueue.size testHeap = some [0, 1, 2, 3, 4].length) ∧
    (∀ n, testQueue.size testHeap = some n →
      n = [0, 1, 2, 3, 4].length ∧
      iterator.advance testHeap n testQueue.begin = some testQueue.end ∧
      ∀ k, k < n → ∃ it, iterator.advance testHeap k testQueue.begin = some it ∧
        it.eq testQueue.end = false) :=
  ⟨by decide, c17_iterator_transitions testHeap testQueue [0, 1, 2, 3, 4] (by decide)⟩

/-- The test line `std::distance(queue.begin(), queue.end()) == init_values.size()`: five
applications of `++` take `begin()` to `end()`, four do not. -/
theorem distance_test :
    iterator.advance testHeap 5 testQueue.begin = some testQueue.end ∧
      iterator.advance testHeap 4 testQueue.begin = some ⟨some 4, false⟩ ∧
      testQueue.size testHeap = some init_values.length := by
  decide

/-! ## Mutations of one object leave the others alone -/

theorem seg_write_data {h : Heap T} {a : Nat} {n : Node T} (hn : h.read a = some n) (v : T)
    {as : List Nat} :
    ∀ {p stop : Option Nat}, Seg h p as stop → Seg (h.write a ⟨v, n.next⟩) p as stop := by
  induction as with
  | nil => intro p stop hs; exact hs
  | cons b bs ih =>
    intro p stop hs
    obtain ⟨hp, m, hm, hrest⟩ := seg_cons.mp hs
    by_cases hba : b = a
    · subst hba
      rw [hn] at hm
      cases hm
      exact seg_cons.mpr ⟨hp, _, Heap.read_write_eq h _ (Heap.read_lt hn), ih hrest⟩
    · refine seg_cons.mpr ⟨hp, m, ?_, ih hrest⟩
      rw [Heap.read_write_ne h _ hba]
      exact hm

theorem write_data_spec {h : Heap T} {q : Queue} {as : List Nat} (ho : Owns h q as)
    {a : Nat} {n : Node T} (hn : h.read a = some n) (v : T) :
    Owns (h.write a ⟨v, n.next⟩) q as ∧
      ∀ b, b ≠ a → (h.write a ⟨v, n.next⟩).read b = h.read b :=
  ⟨⟨seg_write_data hn v ho.1, ho.2.1, ho.2.2⟩, fun _ hb => Heap.read_write_ne h _ hb⟩

theorem advance_mem {h : Heap T} (k : Nat) :
    ∀ {as : List Nat} {p : Option Nat} {it : iterator}, Seg h p as none →
      iterator.advance h k ⟨p, false⟩ = some it → ∀ a, it.node = some a → a ∈ as := by
  induction k with
  | zero =>
    intro as p it hs hadv a ha
    simp only [iterator.advance, Option.some.injEq] at hadv
    subst hadv
    simp only at ha
    subst ha
    cases as with
    | nil =>
      have := seg_nil.mp hs
      simp at this
    | cons b bs =>
      have := (seg_cons.mp hs).1
      rw [Option.some.inj this]
      exact List.mem_cons_self _ _
  | succ k ih =>
    intro as p it hs hadv a ha
    cases as with
    | nil =>
      rw [seg_nil.mp hs] at hadv
      simp [iterator.advance, iterator.incr] at hadv
    | cons b bs =>
      obtain ⟨hp, n, hn, hrest⟩ := seg_cons.mp hs
      subst hp
      simp only [iterator.advance, iterator.incr, Bool.false_eq_true, if_false,
        Option.bind_some, hn, Option.map_some', Option.some_bind] at hadv
      exact List.mem_cons_of_mem _ (ih hrest hadv a ha)

theorem mutate_spec (throwsOn : T → Bool) {h : Heap T} {q : Queue} {as : List Nat}
    (ho : Owns h q as) (m : Mutation T) {h1 : Heap T} {q1 : Queue}
    (hm : (∃ u, q.mutate throwsOn h m = .ok u (h1, q1)) ∨
      ∃ e, q.mutate throwsOn h m = .raised e (h1, q1)) :
    ∃ as1, Owns h1 q1 as1 ∧
      (∀ a, a ∉ as → a < h.length → h1.read a = h.read a) ∧
      ∀ a ∈ as1, a ∈ as ∨ h.length ≤ a := by
  have hsame : ∃ as1, Owns h q as1 ∧
      (∀ a, a ∉ as → a < h.length → h.read a = h.read a) ∧
      ∀ a ∈ as1, a ∈ as ∨ h.length ≤ a :=
    ⟨as, ho, fun _ _ _ => rfl, fun a ha => Or.inl ha⟩
  have hwrite : ∀ (a : Nat) (n : Node T) (v : T), a ∈ as → h.read a = some n →
      ∃ as1, Owns (h.write a ⟨v, n.next⟩) q as1 ∧
        (∀ b, b ∉ as → b < h.length → (h.write a ⟨v, n.next⟩).read b = h.read b) ∧
        ∀ b ∈ as1, b ∈ as ∨ h.length ≤ b := by
    intro a n v ha hn
    obtain ⟨ho1, hfr⟩ := write_data_spec ho hn v
    exact ⟨as, ho1, fun b hb _ => hfr b (fun e => hb (e ▸ ha)), fun b hb => Or.inl hb⟩
  have hpush : ∀ x : T, ((∃ u, q.push h x = .ok u (h1, q1)) ∨
      ∃ e, q.push h x = .raised e (h1, q1)) →
      ∃ as1, Owns h1 q1 as1 ∧
        (∀ a, a ∉ as → a < h.length → h1.read a = h.read a) ∧
        ∀ a ∈ as1, a ∈ as ∨ h.length ≤ a := by
    intro x hx
    obtain ⟨h2, q2, hp, ho2, _, _, hfr⟩ := push_spec ho x
    rw [hp] at hx
    rcases hx with ⟨u, hu⟩ | ⟨e, he⟩
    · cases hu
      refine ⟨_, ho2, fun a ha hlt => hfr a ha (Nat.ne_of_lt hlt), ?_⟩
      intro a ha
      rcases List.mem_append.mp ha with h0 | h0
      · exact Or.inl h0
      · exact Or.inr (by rw [List.mem_singleton.mp h0])
    · cases he
  cases m with
  | push x => exact hpush x hm
  | pushCopy x =>
    simp only [Queue.mutate, Queue.pushCopy] at hm
    cases ht : throwsOn x with
    | true =>
      simp only [ht, if_true] at hm
      rcases hm with ⟨u, hu⟩ | ⟨e, he⟩
      · cases hu
      · cases he
        exact hsame
    | false =>
      simp only [ht, Bool.false_eq_true, if_false] at hm
      exact hpush x hm
  | pop =>
    simp only [Queue.mutate] at hm
    cases as with
    | nil =>
      have he : q.empty = true := (owns_empty ho).mpr rfl
      simp only [Queue.pop, he, if_true] at hm
      rcases hm with ⟨u, hu⟩ | ⟨e, he⟩
      · cases hu
      · cases he
        exact hsame
    | cons a as =>
      obtain ⟨n, hn, hp, ho1, _⟩ := pop_spec ho
      rw [hp] at hm
      rcases hm with ⟨u, hu⟩ | ⟨e, he⟩
      · cases hu
        refine ⟨as, ho1, fun b hb _ => ?_, fun b hb => Or.inl (List.mem_cons_of_mem _ hb)⟩
        exact Heap.read_free_ne _ (fun e => hb (by rw [e]; exact List.mem_cons_self _ _))
      · cases he
  | assignFront v =>
    simp only [Queue.mutate, Queue.assignFront] at hm
    cases as with
    | nil =>
      have he : q.empty = true := (owns_empty ho).mpr rfl
      simp only [he, Bool.not_true, Bool.false_eq_true, if_false] at hm
      rcases hm with ⟨u, hu⟩ | ⟨e, he⟩
      · cases hu
      · cases he
        exact hsame
    | cons a as =>
      obtain ⟨hp, n, hn, _⟩ := seg_cons.mp ho.1
      have he : q.empty = false := by simp [Queue.empty, hp]
      simp only [he, Bool.not_false, if_true, hp, hn] at hm
      rcases hm with ⟨u, hu⟩ | ⟨e, he⟩
      · cases hu
        exact hwrite a n v (List.mem_cons_self _ _) hn
      · cases he
  | assignBack v =>
    simp only [Queue.mutate, Queue.assignBack] at hm
    cases he : q.empty with
    | true =>
      simp only [he, Bool.not_true, Bool.false_eq_true, if_false] at hm
      rcases hm with ⟨u, hu⟩ | ⟨e, he⟩
      · cases hu
      · cases he
        exact hsame
    | false =>
      obtain ⟨bs, l, n, has, hl, hn, _⟩ := owns_nonempty_last ho he
      simp only [he, Bool.not_false, if_true, hl, hn] at hm
      rcases hm with ⟨u, hu⟩ | ⟨e, he⟩
      · cases hu
        exact hwrite l n v (by rw [has]; simp) hn
      · cases he
  | assignAt k v =>
    simp only [Queue.mutate] at hm
    cases hadv : (iterator.advance h k q.begin).bind (fun it => it.assign h v) with
    | none =>
      rw [hadv] at hm
      rcases hm with ⟨u, hu⟩ | ⟨e, he⟩
      · cases hu
      · cases he
    | some h2 =>
      rw [hadv] at hm
      rcases hm with ⟨u, hu⟩ | ⟨e, he⟩
      · cases hu
        obtain ⟨it, hit, hassign⟩ := Option.bind_eq_some.mp hadv
        unfold iterator.assign at hassign
        cases hnode : it.node with
        | none => simp [hnode] at hassign
        | some a =>
          have hmem := advance_mem k ho.1 hit a hnode
          obtain ⟨n, hn⟩ := seg_live ho.1 a hmem
          simp only [hnode, hn, Option.some.injEq] at hassign
          subst hassign
          exact hwrite a n v hmem hn
      · cases he

theorem world_mutate_frame (throwsOn : T → Bool) {w w1 : World T} (hinv : WorldInv w)
    (i : Nat) (m : Mutation T) (hm : (w.mutate throwsOn i m).world? = some w1) :
    WorldInv w1 ∧ ∀ k, k ≠ i → w1.objs[k]? = w.objs[k]? ∧ w1.contents k = w.contents k := by
  unfold World.mutate at hm
  cases hi : w.objs[i]? with
  | none => simp [hi, Outcome.world?] at hm
  | some q =>
    rw [hi] at hm
    have hilt := getElem?_lt hi
    have key : ∀ (h1 : Heap T) (q1 : Queue),
        ((∃ u, q.mutate throwsOn w.heap m = .ok u (h1, q1)) ∨
          ∃ e, q.mutate throwsOn w.heap m = .raised e (h1, q1)) →
        WorldInv ⟨h1, w.objs.set i q1⟩ ∧ ∀ k, k ≠ i →
          (w.objs.set i q1)[k]? = w.objs[k]? ∧
          World.contents ⟨h1, w.objs.set i q1⟩ k = w.contents k := by
      intro h1 q1 hres
      refine ⟨worldInv_store hinv hi (fun as ho => mutate_spec throwsOn ho m hres), ?_⟩
      intro k hki
      obtain ⟨owned, hown, hdis⟩ := hinv
      obtain ⟨_, _, hfr, _⟩ := mutate_spec throwsOn (hown i q hi) m hres
      have hget : (w.objs.set i q1)[k]? = w.objs[k]? := List.getElem?_set_ne (Ne.symm hki)
      refine ⟨hget, contents_frame hown hget ?_⟩
      intro p hp a ha
      exact hfr a (fun hmem => hdis i k hilt (getElem?_lt hp) (Ne.symm hki) hmem ha)
        (seg_lt (hown k p hp).1 a ha)
    cases hres : q.mutate throwsOn w.heap m with
    | undefined => simp [hres, World.store, Outcome.world?] at hm
    | ok u st =>
      obtain ⟨h1, q1⟩ := st
      simp only [hres, World.store, Outcome.world?, Option.some.injEq] at hm
      subst hm
      exact key h1 q1 (Or.inl ⟨u, hres⟩)
    | raised e st =>
      obtain ⟨h1, q1⟩ := st
      simp only [hres, World.store, Outcome.world?, Option.some.injEq] at hm
      subst hm
      exact key h1 q1 (Or.inr ⟨e, hres⟩)

theorem world_mutateAll_frame (throwsOn : T → Bool) (ims : List (Nat × Mutation T)) :
    ∀ {w w1 : World T}, WorldInv w → World.mutateAll throwsOn w ims = some w1 →
      WorldInv w1 ∧ ∀ k, (∀ im ∈ ims, im.1 ≠ k) →
        w1.objs[k]? = w.objs[k]? ∧ w1.contents k = w.contents k := by
  induction ims with
  | nil =>
    intro w w1 hinv hrun
    simp only [World.mutateAll, Option.some.injEq] at hrun
    subst hrun
    exact ⟨hinv, fun _ _ => ⟨rfl, rfl⟩⟩
  | cons im ims ih =>
    intro w w1 hinv hrun
    simp only [World.mutateAll] at hrun
    cases hm : (w.mutate throwsOn im.1 im.2).world? with
    | none => simp [hm] at hrun
    | some w2 =>
      rw [hm] at hrun
      obtain ⟨hinv2, hfr2⟩ := world_mutate_frame throwsOn hinv im.1 im.2 hm
      obtain ⟨hinv1, hfr1⟩ := ih hinv2 hrun
      refine ⟨hinv1, fun k hk => ?_⟩
      have h1 := hfr1 k (fun jm hjm => hk jm (List.mem_cons_of_mem _ hjm))
      have h2 := hfr2 k (Ne.symm (hk im (List.mem_cons_self _ _)))
      exact ⟨h1.1.trans h2.1, h1.2.trans h2.2⟩

/-- C18: in a reachable world (in particular right after object `b` was copy constructed or
copy assigned from object `a`), any run of `push`, `pop` and element writes (`front() = v`,
`back() = v`, `*it = v`) on objects other than `k` leaves the members and the elements of
object `k` unchanged: mutating `a` does not change its copy `b`, nor conversely. -/
theorem c18_copy_independence (throwsOn : T → Bool) (w : World T)
    (hr : Reachable throwsOn w) (ims : List (Nat × Mutation T)) (w1 : World T)
    (hrun : World.mutateAll throwsOn w ims = some w1) (k : Nat)
    (hk : ∀ im ∈ ims, im.1 ≠ k) :
    w1.objs[k]? = w.objs[k]? ∧ w1.contents k = w.contents k :=
  (world_mutateAll_frame throwsOn ims (reachable_inv hr) hrun).2 k hk

theorem copiedWorld_reachable : Reachable (fun _ => false) copiedWorld :=
  ⟨[], copiedProgram, by decide⟩

/-- Witness of C18: in `copiedWorld`, where `second_list` is a copy of `queue`, the run
`queue.push(12); queue.pop(); queue.front() = 99; queue.back() = 7; *++queue.begin() = 5;`
leaves `second_list` holding `2, 4, 6, 8, 10`, while `queue` holds `99, 5, 8, 10, 7`. -/
theorem c18_copy_independence_witness :
    (Reachable (fun _ => false) copiedWorld ∧
      World.mutateAll (fun _ => false) copiedWorld
          [(0, .push 12), (0, .pop), (0, .assignFront 99), (0, .assignBack 7),
            (0, .assignAt 1 5)]
        = some ⟨[none, some ⟨99, some 2⟩, some ⟨5, some 3⟩, some ⟨8, some 4⟩,
            some ⟨10, some 10⟩, some ⟨2, some 6⟩, some ⟨4, some 7⟩, some ⟨6, some 8⟩,
            some ⟨8, some 9⟩, some ⟨10, none⟩, some ⟨7, none⟩],
          [⟨some 1, some 10⟩, ⟨some 5, some 9⟩]⟩ ∧
      ∀ im ∈ [(0, Mutation.push 12), (0, .pop), (0, .assignFront 99), (0, .assignBack 7),
          (0, .assignAt 1 5)], im.1 ≠ 1) ∧
    (World.objs ⟨[none, some ⟨99, some 2⟩, some ⟨5, some 3⟩, some ⟨8, some 4⟩,
            some ⟨10, some 10⟩, some ⟨2, some 6⟩, some ⟨4, some 7⟩, some ⟨6, some 8⟩,
            some ⟨8, some 9⟩, some ⟨10, none⟩, some ⟨7, none⟩],
          [⟨some 1, some 10⟩, ⟨some 5, some 9⟩]⟩)[1]? = copiedWorld.objs[1]? ∧
    World.contents ⟨[none, some ⟨99, some 2⟩, some ⟨5, some 3⟩, some ⟨8, some 4⟩,
            some ⟨10, some 10⟩, some ⟨2, some 6⟩, some ⟨4, some 7⟩, some ⟨6, some 8⟩,
            some ⟨8, some 9⟩, some ⟨10, none⟩, some ⟨7, none⟩],
          [⟨some 1, some 10⟩, ⟨some 5, some 9⟩]⟩ 1 = copiedWorld.contents 1 :=
  ⟨⟨copiedWorld_reachable, by decide, by decide⟩,
    c18_copy_independence (fun _ => false) copiedWorld copiedWorld_reachable
      [(0, .push 12), (0, .pop), (0, .assignFront 99), (0, .assignBack 7), (0, .assignAt 1 5)]
      _ (by decide) 1 (by decide)⟩

/-- The copy of the witness, evaluated: at the moment of the copy both objects hold
`2, 4, 6, 8, 10`; after the run on `queue` the copy still does, and a run on the copy
leaves `queue` as it was. -/
theorem copy_independence_test :
    copiedWorld.contents 0 = some init_values ∧ copiedWorld.contents 1 = some init_values ∧
    (World.mutateAll (fun _ => false) copiedWorld
        [(0, .push 12), (0, .pop), (0, .assignFront 99), (0, .assignBack 7),
          (0, .assignAt 1 5)]).bind (fun w => w.contents 0) = some [99, 5, 8, 10, 7] ∧
    (World.mutateAll (fun _ => false) copiedWorld
        [(0, .push 12), (0, .pop), (0, .assignFront 99), (0, .assignBack 7),
          (0, .assignAt 1 5)]).bind (fun w => w.contents 1) = some init_values ∧
    (World.mutateAll (fun _ => false) copiedWorld
        [(1, .pop), (1, .assignFront 0), (1, .push 3)]).bind (fun w => w.contents 0)
      = some init_values ∧
    (World.mutateAll (fun _ => false) copiedWorld
        [(1, .pop), (1, .assignFront 0), (1, .push 3)]).bind (fun w => w.contents 1)
      = some [0, 6, 8, 10, 3] := by
  decide

end GenericQueue
